import Mathlib

/-!
Turbulent magnetic field grid.

A shallow embedding over the real numbers of
`src/src/magneticField/turbulentMagneticFieldGrid.cpp`
(`TurbulentMagneticFieldGrid::initialize`, `setSeed`, `getCorrelationLength`).

Machine `double`s are read as real numbers and `size_t` values as natural numbers (the
flat index of the sampling loop in unbounded arithmetic).  The flat index of the read-out
loops is the value held by the 32-bit `int i`.  A model of the double arithmetic of
`getCorrelationLength` is given next to its exact closed form.  The helper functions `digit`, `clip` and `pow_integer` of
`src/include/crpropa/Common.h` are embedded in the namespace `crpropa`.  The 3-vector
class, the random source and the FFT library are not part of the translated files; they are
modelled below or taken as parameters.
-/

/-! ## Helper functions of `Common.h` -/

namespace crpropa

/-- The function `digit`: `(value % (d * 10)) / d` on C integers, whose quotient truncates
towards zero and whose remainder has the sign of the dividend. -/
def digit (value d : ℤ) : ℤ := Int.tdiv (Int.tmod value (d * 10)) d

/-- The template `clip`: `std::max(lower, std::min(x, upper))`. -/
def clip {T : Type} [LinearOrder T] (x lower upper : T) : T := max lower (min x upper)

/-- The template `pow_integer<exponent>`: the specialisation for `0` returns `1`, every other
exponent recurses on `exponent >> 1` with the squared base and multiplies by the base when
`exponent & 1` is set. -/
def pow_integer {T : Type} [Monoid T] (exponent : ℕ) (base : T) : T :=
  if _h : exponent = 0 then 1
  else pow_integer (exponent >>> 1) (base * base) * (if (exponent &&& 1) > 0 then base else 1)
termination_by exponent
decreasing_by
  rw [Nat.shiftRight_eq_div_pow]
  exact Nat.div_lt_self (Nat.pos_of_ne_zero (by assumption)) (by norm_num)

end crpropa

namespace mpc

/-! ## The 3-vector type used by the source -/

/-- Modelled from the spec: the 3-vector type `Vector3` is declared outside the translated
sources; it is a triple of doubles with component access `x()`, `y()`, `z()`. -/
structure Vector3 where
  x : ℝ
  y : ℝ
  z : ℝ

namespace Vector3

/-- Modelled from the spec: component-wise sum, the source's `a + b`. -/
def add (a b : Vector3) : Vector3 := ⟨a.x + b.x, a.y + b.y, a.z + b.z⟩

/-- Modelled from the spec: product with a scalar, the source's `v * s` and `v *= s`. -/
def scale (a : Vector3) (s : ℝ) : Vector3 := ⟨a.x * s, a.y * s, a.z * s⟩

/-- Modelled from the spec: quotient by a scalar, the source's `v /= s`. -/
noncomputable def divide (a : Vector3) (s : ℝ) : Vector3 := ⟨a.x / s, a.y / s, a.z / s⟩

/-- Modelled from the spec: scalar product. -/
def dot (a b : Vector3) : ℝ := a.x * b.x + a.y * b.y + a.z * b.z

/-- Modelled from the spec: vector product `a.cross(b)`. -/
def cross (a b : Vector3) : Vector3 :=
  ⟨a.y * b.z - a.z * b.y, a.z * b.x - a.x * b.z, a.x * b.y - a.y * b.x⟩

/-- Modelled from the spec: squared length. -/
def mag2 (a : Vector3) : ℝ := a.x * a.x + a.y * a.y + a.z * a.z

/-- Modelled from the spec: length `v.mag()`. -/
noncomputable def mag (a : Vector3) : ℝ := Real.sqrt (mag2 a)

/-- Modelled from the spec: `a.isParallel(b, eps)`, described by the spec as "parallel to r
(within a small angular tolerance)".  The test of the vector class the source is written
against: the cross product is at most `eps` times the absolute scalar product; with a zero
scalar product the two vectors are parallel only when both are zero. -/
def isParallel (a b : Vector3) (eps : ℝ) : Prop :=
  if |dot a b| = 0 then mag2 a = 0 ∧ mag2 b = 0
  else mag2 (cross a b) ≤ eps * eps * (|dot a b| * |dot a b|)

end Vector3

/-! ## Orthogonal base (lines 65-76 of `initialize`) -/

/-- The arbitrary vector `n0(1, 1, 1)` used to construct the orthogonal base. -/
def n0 : Vector3 := ⟨1, 1, 1⟩

/-- The tolerance `1e-6` of the parallel test. -/
noncomputable def parallelTolerance : ℝ := 1 / 1000000

noncomputable instance Vector3.decidableIsParallel (a b : Vector3) (eps : ℝ) :
    Decidable (Vector3.isParallel a b eps) := by
  unfold Vector3.isParallel
  infer_instance

/-- The pair `(e1, e2)` before the two divisions `e1 /= e1.mag()` and `e2 /= e2.mag()`. -/
noncomputable def rawBase (ek : Vector3) : Vector3 × Vector3 :=
  if Vector3.isParallel ek n0 parallelTolerance then
    (⟨-1, 1, 0⟩, ⟨1, 1, -2⟩)
  else
    (Vector3.cross n0 ek, Vector3.cross ek (Vector3.cross n0 ek))

/-- The pair `(e1, e2)` after `e1 /= e1.mag()` and `e2 /= e2.mag()`. -/
noncomputable def orthogonalBase (ek : Vector3) : Vector3 × Vector3 :=
  (Vector3.divide (rawBase ek).1 (Vector3.mag (rawBase ek).1),
   Vector3.divide (rawBase ek).2 (Vector3.mag (rawBase ek).2))

/-! ## Parameters, indices and wave numbers -/

/-- The fields of the object that `initialize` and `getCorrelationLength` read:
`samples` and `spacing` of the grid, and the four turbulence parameters. -/
structure Params where
  samples : ℕ
  spacing : ℝ
  lMin : ℝ
  lMax : ℝ
  Brms : ℝ
  powerSpectralIndex : ℝ

/-- The size `n2 = floor(n/2) + 1` of the array in z-direction. -/
def n2 (n : ℕ) : ℕ := n / 2 + 1

/-- The flat index `i = ix * n * n2 + iy * n2 + iz` of the sampling loop, in unbounded integer
arithmetic. -/
def spectrumIndex (n ix iy iz : ℕ) : ℕ := ix * n * n2 n + iy * n2 n + iz

/-- The value of the `size_t` expression `ix * n * 2*n2 + iy * 2*n2 + iz` of the normalisation
and save loops. -/
def realIndexValue (n ix iy iz : ℕ) : ℕ := ix * n * 2 * n2 n + iy * 2 * n2 n + iz

/-- The value that the 32-bit `int i` holds after a `size_t` value `v` is assigned to it:
`v` modulo `2^32`, read as a two's-complement number. -/
def toInt32 (v : ℕ) : ℤ := (((v + 2147483648) % 4294967296 : ℕ) : ℤ) - 2147483648

/-- The flat index `i = ix * n * 2*n2 + iy * 2*n2 + iz` of the normalisation and save loops,
as held by the variable `int i` with which `Bx[i]`, `By[i]` and `Bz[i]` are read. -/
def realIndex (n ix iy iz : ℕ) : ℤ := toInt32 (realIndexValue n ix iy iz)

/-- The value `K[i] = (double) i / n - i / (n / 2)`; the subtrahend is an integer quotient. -/
noncomputable def waveNumber (n i : ℕ) : ℝ := (i : ℝ) / (n : ℝ) - ((i / (n / 2) : ℕ) : ℝ)

/-- The table `K` of the `n` discrete wave numbers.  The loop body runs when `0 < n` and
divides the integer `i` by the integer `n / 2`; when that divisor is zero there is no table. -/
noncomputable def waveNumbers (n : ℕ) : Option (ℕ → ℝ) :=
  if 0 < n ∧ n / 2 = 0 then none else some (waveNumber n)

/-- The bound `kMin = spacing / lMax`. -/
noncomputable def kMin (p : Params) : ℝ := p.spacing / p.lMax

/-- The bound `kMax = spacing / lMin`. -/
noncomputable def kMax (p : Params) : ℝ := p.spacing / p.lMin

/-- The test `(k < kMin) || (k > kMax)`: the wave is outside of the turbulent range. -/
def outsideRange (p : Params) (k : ℝ) : Prop := k < kMin p ∨ k > kMax p

noncomputable instance outsideRange.decidable (p : Params) (k : ℝ) :
    Decidable (outsideRange p k) := by
  unfold outsideRange
  infer_instance

/-! ## The random source -/

/-- Modelled from the spec: the random source `random` is a member declared outside the
translated sources.  `seed` resets the state from an integer, `rand` returns a uniform deviate
and `randNorm` a standard-normal deviate, each together with the next state. -/
structure Random where
  State : Type
  seed : ℤ → State
  rand : State → ℝ × State
  randNorm : State → ℝ × State

/-! ## The spectral sampling loop (lines 46-98) -/

/-- The three complex numbers `Bkx[i]`, `Bky[i]`, `Bkz[i]` at one flat index; a complex number
is the pair of its real part `[0]` and its imaginary part `[1]`. -/
structure Coefficient where
  Bkx : ℝ × ℝ
  Bky : ℝ × ℝ
  Bkz : ℝ × ℝ

/-- The three buffers `Bkx`, `Bky`, `Bkz`, read together at a flat index. -/
abbrev Spectrum := ℕ → Coefficient

/-- The coefficient written for a wave outside of the turbulent range. -/
def Coefficient.zero : Coefficient := ⟨(0, 0), (0, 0), (0, 0)⟩

/-- The vector `b` after `b = e1 * cos(theta) + e2 * sin(theta)` with
`theta = 2 * M_PI * u1`; `u1` is the value returned by `random.rand()`. -/
noncomputable def orientation (ek : Vector3) (u1 : ℝ) : Vector3 :=
  Vector3.add
    (Vector3.scale (orthogonalBase ek).1 (Real.cos (2 * Real.pi * u1)))
    (Vector3.scale (orthogonalBase ek).2 (Real.sin (2 * Real.pi * u1)))

/-- The vector `b` after `b *= random.randNorm() * pow(k, powerSpectralIndex / 2.)`;
`g` is the value returned by `random.randNorm()`. -/
noncomputable def amplitude (p : Params) (ek : Vector3) (u1 g : ℝ) : Vector3 :=
  Vector3.scale (orientation ek u1) (g * (Vector3.mag ek) ^ (p.powerSpectralIndex / 2))

/-- The six numbers written for a wave inside the turbulent range; `u2` is the value returned
by the second `random.rand()`, so that `phase = 2 * M_PI * u2`. -/
noncomputable def emitted (p : Params) (ek : Vector3) (u1 g u2 : ℝ) : Coefficient :=
  ⟨((amplitude p ek u1 g).x * Real.cos (2 * Real.pi * u2),
    (amplitude p ek u1 g).x * Real.sin (2 * Real.pi * u2)),
   ((amplitude p ek u1 g).y * Real.cos (2 * Real.pi * u2),
    (amplitude p ek u1 g).y * Real.sin (2 * Real.pi * u2)),
   ((amplitude p ek u1 g).z * Real.cos (2 * Real.pi * u2),
    (amplitude p ek u1 g).z * Real.sin (2 * Real.pi * u2))⟩

/-- One pass through the body of the innermost loop for the wavevector `ek`, from the state
`s` of the random source: the coefficient written and the state left behind.  A wave outside
of the turbulent range takes the `continue` and draws nothing; otherwise `rand`, `randNorm`
and `rand` are called in this order. -/
noncomputable def visit (R : Random) (p : Params) (ek : Vector3) (s : R.State) :
    Coefficient × R.State :=
  if outsideRange p (Vector3.mag ek) then (Coefficient.zero, s)
  else
    (emitted p ek (R.rand s).1 (R.randNorm (R.rand s).2).1
        (R.rand (R.randNorm (R.rand s).2).2).1,
      (R.rand (R.randNorm (R.rand s).2).2).2)

/-- The wavevector `ek.set(K[ix], K[iy], K[iz])`. -/
def waveVector (K : ℕ → ℝ) (idx : ℕ × ℕ × ℕ) : Vector3 := ⟨K idx.1, K idx.2.1, K idx.2.2⟩

/-- The body of the innermost loop at `(ix, iy, iz)`: the coefficient of `visit` is written
to the three buffers at the flat index. -/
noncomputable def sampleStep (R : Random) (p : Params) (K : ℕ → ℝ)
    (st : R.State × Spectrum) (idx : ℕ × ℕ × ℕ) : R.State × Spectrum :=
  ((visit R p (waveVector K idx) st.1).2,
    Function.update st.2 (spectrumIndex p.samples idx.1 idx.2.1 idx.2.2)
      (visit R p (waveVector K idx) st.1).1)

/-- The index triples in the order of the three nested loops: `ix` outermost over `0..n-1`,
then `iy` over `0..n-1`, and `iz` innermost over `0..n2-1`. -/
def halfGrid (n : ℕ) : List (ℕ × ℕ × ℕ) :=
  (List.range n).flatMap fun ix =>
    (List.range n).flatMap fun iy =>
      (List.range (n2 n)).map fun iz => (ix, iy, iz)

/-- The sampling loops, from the state `s` of the random source and the content `mem` of the
freshly allocated buffers: the final state and the buffers. -/
noncomputable def sampleSpectrum (R : Random) (p : Params) (K : ℕ → ℝ) (s : R.State)
    (mem : Spectrum) : R.State × Spectrum :=
  (halfGrid p.samples).foldl (sampleStep R p K) (s, mem)

/-! ## The inverse transform (lines 100-115) -/

/-- A complex-to-real transform on `n × n × n` points, from one buffer of complex numbers to
the reals that overlay it.  The reals are given by their offset from the start of the buffer,
the offset being an `int`: the offsets `0, ..., 2*n*n*n2 - 1` are the doubles of the buffer,
every other offset is memory outside it. -/
abbrev Transform := ℕ → (ℕ → ℝ × ℝ) → (ℤ → ℝ)

/-- Modelled from the spec: the "inverse 3D discrete Fourier transform, complex-to-real" of
the FFT library, which is outside the translated sources.  The output at the real position
`j = ix * n * 2*n2 + iy * 2*n2 + iz` is the real part of the sum over all `n³` frequencies of
`B(k) · exp(2πi (kx·ix + ky·iy + kz·iz) / n)`, the frequencies with `kz ≥ n2` being read
from the mirrored position as the complex conjugate.  An offset outside the buffer is given
the value of offset `0`; nothing is proved about such offsets. -/
noncomputable def inverseTransform : Transform := fun n Bk j =>
  ∑ kx ∈ Finset.range n, ∑ ky ∈ Finset.range n, ∑ kz ∈ Finset.range n,
    ((if kz < n2 n then (Bk (spectrumIndex n kx ky kz)).1
        else (Bk (spectrumIndex n ((n - kx) % n) ((n - ky) % n) (n - kz))).1)
      * Real.cos (2 * Real.pi
          * ((kx * (j.toNat / (n * 2 * n2 n)) + ky * (j.toNat / (2 * n2 n) % n)
              + kz * (j.toNat % (2 * n2 n)) : ℕ) : ℝ)
          / n)
    - (if kz < n2 n then (Bk (spectrumIndex n kx ky kz)).2
        else -(Bk (spectrumIndex n ((n - kx) % n) ((n - ky) % n) (n - kz))).2)
      * Real.sin (2 * Real.pi
          * ((kx * (j.toNat / (n * 2 * n2 n)) + ky * (j.toNat / (2 * n2 n) % n)
              + kz * (j.toNat % (2 * n2 n)) : ℕ) : ℝ)
          / n))

/-! ## Normalisation (lines 117-134) -/

/-- The sum `sumB2` accumulated over the `n³` cells. -/
noncomputable def sumB2 (n : ℕ) (Bx By Bz : ℤ → ℝ) : ℝ :=
  ∑ ix ∈ Finset.range n, ∑ iy ∈ Finset.range n, ∑ iz ∈ Finset.range n,
    (Bx (realIndex n ix iy iz) ^ 2 + By (realIndex n ix iy iz) ^ 2
      + Bz (realIndex n ix iy iz) ^ 2)

/-- The argument `sumB2 / (n * n * n)` of the square root. -/
noncomputable def meanSquare (n : ℕ) (Bx By Bz : ℤ → ℝ) : ℝ :=
  sumB2 n Bx By Bz / ((n * n * n : ℕ) : ℝ)

/-- The factor `weight = Brms / sqrt(sumB2 / (n * n * n))`. -/
noncomputable def weight (n : ℕ) (Brms : ℝ) (Bx By Bz : ℤ → ℝ) : ℝ :=
  Brms / Real.sqrt (meanSquare n Bx By Bz)

/-- The cell `grid[ix][iy][iz] = Vector3(Bx[i], By[i], Bz[i]) * weight`. -/
noncomputable def gridCell (n : ℕ) (Brms : ℝ) (Bx By Bz : ℤ → ℝ) (ix iy iz : ℕ) : Vector3 :=
  Vector3.scale ⟨Bx (realIndex n ix iy iz), By (realIndex n ix iy iz), Bz (realIndex n ix iy iz)⟩
    (weight n Brms Bx By Bz)

/-- The mean over the `n³` cells of a grid of the squared magnitude
`Bx² + By² + Bz²`. -/
noncomputable def gridMeanSquare (n : ℕ) (grid : ℕ → ℕ → ℕ → Vector3) : ℝ :=
  1 / ((n : ℝ) ^ 3) * ∑ ix ∈ Finset.range n, ∑ iy ∈ Finset.range n, ∑ iz ∈ Finset.range n,
    ((grid ix iy iz).x ^ 2 + (grid ix iy iz).y ^ 2 + (grid ix iy iz).z ^ 2)

/-! ## `initialize`, the constructor and `setSeed` -/

/-- What a run of `initialize` leaves behind.
* `configurationError`: the caller is told that the parameters are rejected.  It is the
  result the specification asks for; no statement of the source produces it.
* `integerDivisionByZero`: the table of wave numbers divides an integer by `n / 2 = 0`.
* `zeroMeanSquare`: `weight` is evaluated with `sumB2 / (n * n * n)` equal to zero, so the
  weight and the cells stored are not real numbers.
* `stored grid`: the cells are real and the grid holds them. -/
inductive Outcome where
  | configurationError : Outcome
  | integerDivisionByZero : Outcome
  | zeroMeanSquare : Outcome
  | stored (grid : ℕ → ℕ → ℕ → Vector3) : Outcome

/-- The three real buffers `Bx`, `By`, `Bz` after the three in-place transforms. -/
def realBuffers (c2r : Transform) (n : ℕ) (spec : Spectrum) : (ℤ → ℝ) × (ℤ → ℝ) × (ℤ → ℝ) :=
  (c2r n (fun i => (spec i).Bkx), c2r n (fun i => (spec i).Bky), c2r n (fun i => (spec i).Bkz))

/-- The method `initialize`, run from the state `s` of the random source with the transform
`c2r` and buffers allocated with content `mem`. -/
noncomputable def initializeGrid (R : Random) (c2r : Transform) (p : Params) (mem : Spectrum)
    (s : R.State) : Outcome :=
  match waveNumbers p.samples with
  | none => Outcome.integerDivisionByZero
  | some K =>
    if meanSquare p.samples
        (realBuffers c2r p.samples (sampleSpectrum R p K s mem).2).1
        (realBuffers c2r p.samples (sampleSpectrum R p K s mem).2).2.1
        (realBuffers c2r p.samples (sampleSpectrum R p K s mem).2).2.2 = 0 then
      Outcome.zeroMeanSquare
    else
      Outcome.stored (gridCell p.samples p.Brms
        (realBuffers c2r p.samples (sampleSpectrum R p K s mem).2).1
        (realBuffers c2r p.samples (sampleSpectrum R p K s mem).2).2.1
        (realBuffers c2r p.samples (sampleSpectrum R p K s mem).2).2.2)

/-- The constructor: it stores the four turbulence parameters and calls `initialize`. -/
noncomputable def construct (R : Random) (c2r : Transform) (p : Params) (mem : Spectrum)
    (s : R.State) : Outcome :=
  initializeGrid R c2r p mem s

/-- The method `setSeed`: `random.seed(seed)` followed by `initialize`. -/
noncomputable def setSeed (R : Random) (c2r : Transform) (p : Params) (mem : Spectrum)
    (seed : ℤ) : Outcome :=
  initializeGrid R c2r p mem (R.seed seed)

/-! ## `getCorrelationLength` (lines 149-153) -/

/-- The closed form of the method `getCorrelationLength`, with `r = lMin / lMax` and
`a = -powerSpectralIndex - 2`, in exact real arithmetic; the rounding of the double
operations is modelled by `getCorrelationLengthDouble`. -/
noncomputable def getCorrelationLength (p : Params) : ℝ :=
  p.lMax / 2 * (-p.powerSpectralIndex - 2 - 1) / (-p.powerSpectralIndex - 2)
    * (1 - (p.lMin / p.lMax) ^ (-p.powerSpectralIndex - 2))
    / (1 - (p.lMin / p.lMax) ^ (-p.powerSpectralIndex - 2 - 1))

/-! ## `getCorrelationLength` in double arithmetic -/

/-- Rounding of a real to the nearest integer, a tie being resolved to the even one. -/
noncomputable def roundHalfEven (y : ℝ) : ℤ :=
  if Int.fract y < 1 / 2 then ⌊y⌋
  else if 1 / 2 < Int.fract y then ⌊y⌋ + 1
  else if Even ⌊y⌋ then ⌊y⌋ else ⌊y⌋ + 1

/-- The rounding of a real result to a `double` (IEEE 754 binary64, round to nearest, ties to
even): a value with `2^k ≤ |x| < 2^(k+1)` is rounded to a multiple of `2^(k-52)`.  The limits
of the exponent range (overflow, subnormal numbers) are not modelled. -/
noncomputable def roundDouble (x : ℝ) : ℝ :=
  (roundHalfEven (x / (2 : ℝ) ^ (Int.log 2 |x| - 52)) : ℝ) * (2 : ℝ) ^ (Int.log 2 |x| - 52)

/-- The double difference `x - y`. -/
noncomputable def fsub (x y : ℝ) : ℝ := roundDouble (x - y)

/-- The double product `x * y`. -/
noncomputable def fmul (x y : ℝ) : ℝ := roundDouble (x * y)

/-- The double quotient `x / y`; a division by zero has no finite result. -/
noncomputable def fdiv (x y : ℝ) : Option ℝ :=
  if y = 0 then none else some (roundDouble (x / y))

/-- The library function `pow` is outside the sources; this is a correctly rounded one, which
returns the double nearest to the real power. -/
noncomputable def powNearest (x y : ℝ) : ℝ := roundDouble (x ^ y)

/-- The method `getCorrelationLength` in double arithmetic, with the library function `pow`
as a parameter: `r = lMin / lMax`, `a = -powerSpectralIndex - 2`, and the product
`lMax / 2 * (a - 1) / a * (1 - pow(r, a)) / (1 - pow(r, a - 1))` evaluated from left to
right, every operation rounded; `none` when a division by zero is met. -/
noncomputable def getCorrelationLengthDouble (pw : ℝ → ℝ → ℝ) (p : Params) : Option ℝ :=
  (fdiv p.lMin p.lMax).bind fun r =>
    (fdiv p.lMax 2).bind fun h =>
      (fdiv (fmul h (fsub (fsub (-p.powerSpectralIndex) 2) 1))
          (fsub (-p.powerSpectralIndex) 2)).bind fun c =>
        fdiv (fmul c (fsub 1 (pw r (fsub (-p.powerSpectralIndex) 2))))
          (fsub 1 (pw r (fsub (fsub (-p.powerSpectralIndex) 2) 1)))

/-! ## Hermitian symmetry -/

/-- The wavevector `(K[1000000], K[1000000], K[1000001])` of a grid with `n = 4000000`
samples: within the tolerance of the parallel test, yet not parallel to `(1,1,1)`. -/
noncomputable def nearlyParallelWave : Vector3 := ⟨1 / 4, 1 / 4, 1 / 4 + 1 / 4000000⟩

/-- A random source whose uniform deviate is always `1/4` and whose normal deviate is
always `1`. -/
noncomputable def constantSource : Random where
  State := Unit
  seed := fun _ => ()
  rand := fun s => (1 / 4, s)
  randNorm := fun s => (1, s)

/-- A grid with 2 samples, spacing 1, and the turbulent range `[1/4, 1]` of wave numbers. -/
noncomputable def smallParams : Params where
  samples := 2
  spacing := 1
  lMin := 1
  lMax := 4
  Brms := 1
  powerSpectralIndex := 0

/-- A grid with a single sample, spacing 1, and the length scales `lMin = 1 < lMax = 4`. -/
noncomputable def oneSampleParams : Params where
  samples := 1
  spacing := 1
  lMin := 1
  lMax := 4
  Brms := 1
  powerSpectralIndex := 0

/-- Real buffers that hold `1` in the x-component and `0` in the other two. -/
def unitBuffer : ℤ → ℝ := fun _ => 1

/-- A real buffer that holds zero everywhere. -/
def zeroBuffer : ℤ → ℝ := fun _ => 0

/-- A grid with 2 samples and spacing 1 whose length scales `lMin = 1/4 < lMax = 1/2` give
the range `[2, 4]` of wave numbers, above every wave number of the grid. -/
noncomputable def emptyBandParams : Params where
  samples := 2
  spacing := 1
  lMin := 1 / 4
  lMax := 1 / 2
  Brms := 1
  powerSpectralIndex := 0

/-- A grid with 2 samples and spacing 1 whose length scales are equal, `lMin = lMax = 2`. -/
noncomputable def equalScaleParams : Params where
  samples := 2
  spacing := 1
  lMin := 2
  lMax := 2
  Brms := 1
  powerSpectralIndex := 0

/-- A grid with the Kolmogorov index `-11/3` and the length scales `lMin = 2`, `lMax = 4`. -/
noncomputable def kolmogorovParams : Params where
  samples := 8
  spacing := 1
  lMin := 2
  lMax := 4
  Brms := 1
  powerSpectralIndex := -(11 / 3)

/-- The parameters `lMax = 4`, `lMin = 4 - 2^-51` (the double next below `4`) and spectral
index `-4`, so that `a = 2`. -/
noncomputable def nearlyEqualScales : Params where
  samples := 8
  spacing := 1
  lMin := 4 - 1 / 2 ^ 51
  lMax := 4
  Brms := 1
  powerSpectralIndex := -4

/-- Buffers that hold zero everywhere. -/
def zeroSpectrum : Spectrum := fun _ => Coefficient.zero

/-! ## Counting the draws -/

/-- The random source `R` with a counter of the calls of `rand` and `randNorm` added to its
state; `seed` resets the counter. -/
def counted (R : Random) : Random where
  State := R.State × ℕ
  seed := fun z => (R.seed z, 0)
  rand := fun s => ((R.rand s.1).1, ((R.rand s.1).2, s.2 + 1))
  randNorm := fun s => ((R.randNorm s.1).1, ((R.randNorm s.1).2, s.2 + 1))

/-- The test `!((k < kMin) || (k > kMax))` on the wavevector of an index triple, as a
Boolean. -/
noncomputable def insideRange (p : Params) (K : ℕ → ℝ) (idx : ℕ × ℕ × ℕ) : Bool :=
  decide (¬ outsideRange p (Vector3.mag (waveVector K idx)))

/-- Buffers whose content differs from index to index and is nowhere zero. -/
def garbageSpectrum : Spectrum := fun i => ⟨((i : ℝ) + 1, 1), (2, 3), (4, 5)⟩

/-! ## Facts about the vector operations -/

theorem Vector3.dot_comm (a b : Vector3) : Vector3.dot a b = Vector3.dot b a := by
  simp only [Vector3.dot]; ring

theorem Vector3.dot_cross_left (a b : Vector3) : Vector3.dot (Vector3.cross a b) a = 0 := by
  simp only [Vector3.dot, Vector3.cross]; ring

theorem Vector3.dot_cross_right (a b : Vector3) : Vector3.dot (Vector3.cross a b) b = 0 := by
  simp only [Vector3.dot, Vector3.cross]; ring

theorem Vector3.mag2_cross (a b : Vector3) :
    Vector3.mag2 (Vector3.cross a b)
      = Vector3.mag2 a * Vector3.mag2 b - Vector3.dot a b * Vector3.dot a b := by
  simp only [Vector3.dot, Vector3.cross, Vector3.mag2]; ring

theorem Vector3.mag2_nonneg (a : Vector3) : 0 ≤ Vector3.mag2 a := by
  simp only [Vector3.mag2]; nlinarith [mul_self_nonneg a.x, mul_self_nonneg a.y, mul_self_nonneg a.z]

theorem Vector3.mag2_eq_zero_iff (a : Vector3) : Vector3.mag2 a = 0 ↔ a = ⟨0, 0, 0⟩ := by
  constructor
  · intro h
    simp only [Vector3.mag2] at h
    have hx : a.x = 0 := by nlinarith [mul_self_nonneg a.x, mul_self_nonneg a.y, mul_self_nonneg a.z]
    have hy : a.y = 0 := by nlinarith [mul_self_nonneg a.x, mul_self_nonneg a.y, mul_self_nonneg a.z]
    have hz : a.z = 0 := by nlinarith [mul_self_nonneg a.x, mul_self_nonneg a.y, mul_self_nonneg a.z]
    cases a
    simp_all
  · intro h
    subst h
    simp [Vector3.mag2]

theorem Vector3.mag_eq_zero_iff (a : Vector3) : Vector3.mag a = 0 ↔ Vector3.mag2 a = 0 := by
  unfold Vector3.mag
  exact Real.sqrt_eq_zero (Vector3.mag2_nonneg a)

theorem Vector3.mag_mul_self (a : Vector3) : Vector3.mag a * Vector3.mag a = Vector3.mag2 a := by
  unfold Vector3.mag
  exact Real.mul_self_sqrt (Vector3.mag2_nonneg a)

theorem Vector3.mag2_divide (a : Vector3) (s : ℝ) :
    Vector3.mag2 (Vector3.divide a s) = Vector3.mag2 a / (s * s) := by
  simp only [Vector3.mag2, Vector3.divide]
  by_cases hs : s = 0
  · subst hs; simp
  · field_simp

theorem Vector3.mag_divide_self (a : Vector3) (h : Vector3.mag a ≠ 0) :
    Vector3.mag (Vector3.divide a (Vector3.mag a)) = 1 := by
  have h2 : Vector3.mag2 a ≠ 0 := fun h0 => h ((Vector3.mag_eq_zero_iff a).2 h0)
  unfold Vector3.mag at *
  rw [Vector3.mag2_divide, Real.mul_self_sqrt (Vector3.mag2_nonneg a), div_self h2]
  exact Real.sqrt_one

theorem Vector3.dot_divide_left (a b : Vector3) (s : ℝ) :
    Vector3.dot (Vector3.divide a s) b = Vector3.dot a b / s := by
  simp only [Vector3.dot, Vector3.divide]; ring

theorem Vector3.dot_divide_right (a b : Vector3) (s : ℝ) :
    Vector3.dot a (Vector3.divide b s) = Vector3.dot a b / s := by
  simp only [Vector3.dot, Vector3.divide]; ring

theorem Vector3.divide_ne_zero (a : Vector3) (h : Vector3.mag a ≠ 0) :
    Vector3.divide a (Vector3.mag a) ≠ ⟨0, 0, 0⟩ := by
  intro h0
  have h1 := Vector3.mag_divide_self a h
  rw [h0] at h1
  simp [Vector3.mag, Vector3.mag2] at h1

/-- A wavevector with equal components passes the parallel test against `(1,1,1)`. -/
theorem isParallel_diagonal (c : ℝ) (hc : c ≠ 0) :
    Vector3.isParallel ⟨c, c, c⟩ n0 parallelTolerance := by
  have hd : Vector3.dot ⟨c, c, c⟩ n0 = 3 * c := by simp only [Vector3.dot, n0]; ring
  have hx : Vector3.mag2 (Vector3.cross ⟨c, c, c⟩ n0) = 0 := by
    simp only [Vector3.cross, Vector3.mag2, n0]; ring
  unfold Vector3.isParallel
  rw [hd, hx]
  have h3 : |3 * c| ≠ 0 := by
    rw [abs_ne_zero]; exact mul_ne_zero (by norm_num) hc
  rw [if_neg h3]
  unfold parallelTolerance
  positivity

theorem rawBase_diagonal (c : ℝ) (hc : c ≠ 0) :
    rawBase ⟨c, c, c⟩ = (⟨-1, 1, 0⟩, ⟨1, 1, -2⟩) := by
  unfold rawBase
  rw [if_pos (isParallel_diagonal c hc)]

/-- Outside the parallel branch the cross product with `(1,1,1)` is not the zero vector. -/
theorem cross_n0_ne_zero (ek : Vector3) (hk : ek ≠ ⟨0, 0, 0⟩)
    (hp : ¬ Vector3.isParallel ek n0 parallelTolerance) :
    Vector3.mag2 (Vector3.cross n0 ek) ≠ 0 := by
  intro h0
  apply hp
  have hk2 : Vector3.mag2 ek ≠ 0 := fun h => hk ((Vector3.mag2_eq_zero_iff ek).1 h)
  have hk2pos : 0 < Vector3.mag2 ek := lt_of_le_of_ne (Vector3.mag2_nonneg ek) (Ne.symm hk2)
  have hn : Vector3.mag2 n0 = 3 := by simp only [Vector3.mag2, n0]; norm_num
  have hl := Vector3.mag2_cross n0 ek
  rw [h0, hn] at hl
  have hsym : Vector3.mag2 (Vector3.cross ek n0) = 0 := by
    have := Vector3.mag2_cross ek n0
    rw [Vector3.dot_comm ek n0, hn] at this
    linarith
  have hdot : Vector3.dot ek n0 ≠ 0 := by
    intro hd
    rw [Vector3.dot_comm] at hd
    rw [hd] at hl
    nlinarith
  unfold Vector3.isParallel
  have habs : |Vector3.dot ek n0| ≠ 0 := abs_ne_zero.2 hdot
  rw [if_neg habs, hsym]
  unfold parallelTolerance
  positivity

/-! ## Facts about the indices and the sampling loop -/

theorem mem_halfGrid (n ix iy iz : ℕ) :
    (ix, iy, iz) ∈ halfGrid n ↔ ix < n ∧ iy < n ∧ iz < n2 n := by
  simp only [halfGrid, List.mem_flatMap, List.mem_map, List.mem_range, Prod.mk.injEq]
  constructor
  · rintro ⟨a, ha, b, hb, c, hc, h1, h2, h3⟩
    subst h1 h2 h3
    exact ⟨ha, hb, hc⟩
  · rintro ⟨ha, hb, hc⟩
    exact ⟨ix, ha, iy, hb, iz, hc, rfl, rfl, rfl⟩

theorem flat_pair_inj (m a b c d : ℕ) (hb : b < m) (hd : d < m) (h : a * m + b = c * m + d) :
    a = c ∧ b = d := by
  have hm : 0 < m := Nat.lt_of_le_of_lt (Nat.zero_le b) hb
  have h1 : (a * m + b) / m = a := by
    rw [Nat.add_comm, Nat.add_mul_div_right _ _ hm, Nat.div_eq_of_lt hb, Nat.zero_add]
  have h2 : (c * m + d) / m = c := by
    rw [Nat.add_comm, Nat.add_mul_div_right _ _ hm, Nat.div_eq_of_lt hd, Nat.zero_add]
  have hac : a = c := by rw [← h1, ← h2, h]
  subst hac
  exact ⟨rfl, Nat.add_left_cancel h⟩

theorem spectrumIndex_inj (n ix iy iz jx jy jz : ℕ) (hy : iy < n) (hz : iz < n2 n)
    (hy2 : jy < n) (hz2 : jz < n2 n)
    (h : spectrumIndex n ix iy iz = spectrumIndex n jx jy jz) :
    ix = jx ∧ iy = jy ∧ iz = jz := by
  unfold spectrumIndex at h
  have e1 : ix * n * n2 n + iy * n2 n + iz = (ix * n + iy) * n2 n + iz := by ring
  have e2 : jx * n * n2 n + jy * n2 n + jz = (jx * n + jy) * n2 n + jz := by ring
  rw [e1, e2] at h
  obtain ⟨h1, h2⟩ := flat_pair_inj (n2 n) _ _ _ _ hz hz2 h
  obtain ⟨h3, h4⟩ := flat_pair_inj n _ _ _ _ hy hy2 h1
  exact ⟨h3, h4, h2⟩

/-- After the loop over a list of index triples, a flat index that some triple of the list
maps to holds the coefficient of a visit of such a triple. -/
theorem foldl_sampleStep_written (R : Random) (p : Params) (K : ℕ → ℝ)
    (L : List (ℕ × ℕ × ℕ)) (st : R.State × Spectrum) (j : ℕ)
    (h : ∃ idx ∈ L, spectrumIndex p.samples idx.1 idx.2.1 idx.2.2 = j) :
    ∃ idx ∈ L, spectrumIndex p.samples idx.1 idx.2.1 idx.2.2 = j ∧
      ∃ s : R.State, (L.foldl (sampleStep R p K) st).2 j = (visit R p (waveVector K idx) s).1 := by
  induction L using List.reverseRecOn with
  | nil =>
    obtain ⟨idx, hmem, _⟩ := h
    simp at hmem
  | append_singleton L a ih =>
    rw [List.foldl_append, List.foldl_cons, List.foldl_nil]
    by_cases ha : spectrumIndex p.samples a.1 a.2.1 a.2.2 = j
    · refine ⟨a, by simp, ha, (L.foldl (sampleStep R p K) st).1, ?_⟩
      simp only [sampleStep]
      rw [ha, Function.update_same]
    · obtain ⟨idx, hmem, hidx⟩ := h
      have hmemL : idx ∈ L := by
        rcases List.mem_append.1 hmem with h1 | h1
        · exact h1
        · have : idx = a := by simpa using h1
          subst this
          exact absurd hidx ha
      obtain ⟨idx2, hmem2, hj2, s, hs⟩ := ih ⟨idx, hmemL, hidx⟩
      refine ⟨idx2, List.mem_append_left _ hmem2, hj2, s, ?_⟩
      simp only [sampleStep]
      rw [Function.update_noteq (Ne.symm ha)]
      exact hs

/-- After the sampling loops, the buffers hold at the flat index of each triple of the
half-grid the coefficient of the visit of that triple. -/
theorem sampleSpectrum_stored (R : Random) (p : Params) (K : ℕ → ℝ) (s : R.State)
    (mem : Spectrum) (ix iy iz : ℕ) (hx : ix < p.samples) (hy : iy < p.samples)
    (hz : iz < n2 p.samples) :
    ∃ s1 : R.State,
      (sampleSpectrum R p K s mem).2 (spectrumIndex p.samples ix iy iz)
        = (visit R p (waveVector K (ix, iy, iz)) s1).1 := by
  obtain ⟨idx, hmem, hj, s1, hs⟩ :=
    foldl_sampleStep_written R p K (halfGrid p.samples) (s, mem)
      (spectrumIndex p.samples ix iy iz)
      ⟨(ix, iy, iz), (mem_halfGrid _ _ _ _).2 ⟨hx, hy, hz⟩, rfl⟩
  obtain ⟨a, b, c⟩ := idx
  have hm := (mem_halfGrid _ _ _ _).1 hmem
  obtain ⟨h1, h2, h3⟩ := spectrumIndex_inj p.samples a b c ix iy iz hm.2.1 hm.2.2 hy hz hj
  subst h1 h2 h3
  exact ⟨s1, hs⟩

/-! ## The orthogonal base -/

/-- The two vectors before normalisation are non-zero and perpendicular to each other, and
outside the parallel branch both are perpendicular to the wavevector. -/
theorem rawBase_facts (ek : Vector3) (hk : ek ≠ ⟨0, 0, 0⟩) :
    Vector3.mag (rawBase ek).1 ≠ 0 ∧ Vector3.mag (rawBase ek).2 ≠ 0
      ∧ Vector3.dot (rawBase ek).1 (rawBase ek).2 = 0
      ∧ (¬ Vector3.isParallel ek n0 parallelTolerance →
          Vector3.dot (rawBase ek).1 ek = 0 ∧ Vector3.dot (rawBase ek).2 ek = 0) := by
  by_cases hp : Vector3.isParallel ek n0 parallelTolerance
  · have hr : rawBase ek = (⟨-1, 1, 0⟩, ⟨1, 1, -2⟩) := by
      unfold rawBase; rw [if_pos hp]
    rw [hr]
    refine ⟨?_, ?_, ?_, fun h => absurd hp h⟩
    · rw [Ne, Vector3.mag_eq_zero_iff]; norm_num [Vector3.mag2]
    · rw [Ne, Vector3.mag_eq_zero_iff]; norm_num [Vector3.mag2]
    · norm_num [Vector3.dot]
  · have hr : rawBase ek = (Vector3.cross n0 ek, Vector3.cross ek (Vector3.cross n0 ek)) := by
      unfold rawBase; rw [if_neg hp]
    rw [hr]
    have h1 : Vector3.mag2 (Vector3.cross n0 ek) ≠ 0 := cross_n0_ne_zero ek hk hp
    have hk2 : Vector3.mag2 ek ≠ 0 := fun h => hk ((Vector3.mag2_eq_zero_iff ek).1 h)
    have hperp : Vector3.dot ek (Vector3.cross n0 ek) = 0 := by
      rw [Vector3.dot_comm]; exact Vector3.dot_cross_right n0 ek
    have h2 : Vector3.mag2 (Vector3.cross ek (Vector3.cross n0 ek)) ≠ 0 := by
      rw [Vector3.mag2_cross, hperp]
      simpa using mul_ne_zero hk2 h1
    refine ⟨?_, ?_, ?_, fun _ => ⟨?_, ?_⟩⟩
    · rw [Ne, Vector3.mag_eq_zero_iff]; exact h1
    · rw [Ne, Vector3.mag_eq_zero_iff]; exact h2
    · show Vector3.dot (Vector3.cross n0 ek) (Vector3.cross ek (Vector3.cross n0 ek)) = 0
      rw [Vector3.dot_comm]; exact Vector3.dot_cross_right ek (Vector3.cross n0 ek)
    · exact Vector3.dot_cross_right n0 ek
    · exact Vector3.dot_cross_left ek (Vector3.cross n0 ek)

theorem orthogonalBase_dot (ek : Vector3) :
    Vector3.dot (orthogonalBase ek).1 (orthogonalBase ek).2
      = Vector3.dot (rawBase ek).1 (rawBase ek).2
          / Vector3.mag (rawBase ek).1 / Vector3.mag (rawBase ek).2 := by
  simp only [orthogonalBase, Vector3.dot, Vector3.divide]; ring

theorem orthogonalBase_dot_wave (ek : Vector3) :
    Vector3.dot (orthogonalBase ek).1 ek
        = Vector3.dot (rawBase ek).1 ek / Vector3.mag (rawBase ek).1
      ∧ Vector3.dot (orthogonalBase ek).2 ek
        = Vector3.dot (rawBase ek).2 ek / Vector3.mag (rawBase ek).2 := by
  constructor <;> simp only [orthogonalBase, Vector3.dot_divide_left]

/-- C3: for a wavevector `(c,c,c)` with `c > 0` the base built is
`e1 = (-1,1,0)/|(-1,1,0)|`, `e2 = (1,1,-2)/|(1,1,-2)|`; both are non-zero with unit length,
perpendicular to each other and perpendicular to the wavevector. -/
theorem orthogonalBase_diagonal (c : ℝ) (hc : 0 < c) :
    orthogonalBase ⟨c, c, c⟩
        = (Vector3.divide ⟨-1, 1, 0⟩ (Vector3.mag ⟨-1, 1, 0⟩),
           Vector3.divide ⟨1, 1, -2⟩ (Vector3.mag ⟨1, 1, -2⟩))
      ∧ (orthogonalBase ⟨c, c, c⟩).1 ≠ ⟨0, 0, 0⟩
      ∧ (orthogonalBase ⟨c, c, c⟩).2 ≠ ⟨0, 0, 0⟩
      ∧ Vector3.mag (orthogonalBase ⟨c, c, c⟩).1 = 1
      ∧ Vector3.mag (orthogonalBase ⟨c, c, c⟩).2 = 1
      ∧ Vector3.dot (orthogonalBase ⟨c, c, c⟩).1 (orthogonalBase ⟨c, c, c⟩).2 = 0
      ∧ Vector3.dot (orthogonalBase ⟨c, c, c⟩).1 ⟨c, c, c⟩ = 0
      ∧ Vector3.dot (orthogonalBase ⟨c, c, c⟩).2 ⟨c, c, c⟩ = 0 := by
  have hr := rawBase_diagonal c (ne_of_gt hc)
  have h1 : Vector3.mag (⟨-1, 1, 0⟩ : Vector3) ≠ 0 := by
    rw [Ne, Vector3.mag_eq_zero_iff]; norm_num [Vector3.mag2]
  have h2 : Vector3.mag (⟨1, 1, -2⟩ : Vector3) ≠ 0 := by
    rw [Ne, Vector3.mag_eq_zero_iff]; norm_num [Vector3.mag2]
  have hb : orthogonalBase ⟨c, c, c⟩
      = (Vector3.divide ⟨-1, 1, 0⟩ (Vector3.mag ⟨-1, 1, 0⟩),
         Vector3.divide ⟨1, 1, -2⟩ (Vector3.mag ⟨1, 1, -2⟩)) := by
    unfold orthogonalBase; rw [hr]
  rw [hb]
  refine ⟨rfl, Vector3.divide_ne_zero _ h1, Vector3.divide_ne_zero _ h2,
    Vector3.mag_divide_self _ h1, Vector3.mag_divide_self _ h2, ?_, ?_, ?_⟩
  · simp only [Vector3.dot, Vector3.divide]; ring
  · simp only [Vector3.dot, Vector3.divide]; ring
  · simp only [Vector3.dot, Vector3.divide]; ring

/-- C3 (witness): the base built for the wavevector `(1,1,1)`. -/
theorem orthogonalBase_diagonal_witness :
    orthogonalBase ⟨1, 1, 1⟩
        = (Vector3.divide ⟨-1, 1, 0⟩ (Vector3.mag ⟨-1, 1, 0⟩),
           Vector3.divide ⟨1, 1, -2⟩ (Vector3.mag ⟨1, 1, -2⟩))
      ∧ (orthogonalBase ⟨1, 1, 1⟩).1 ≠ ⟨0, 0, 0⟩
      ∧ (orthogonalBase ⟨1, 1, 1⟩).2 ≠ ⟨0, 0, 0⟩
      ∧ Vector3.mag (orthogonalBase ⟨1, 1, 1⟩).1 = 1
      ∧ Vector3.mag (orthogonalBase ⟨1, 1, 1⟩).2 = 1
      ∧ Vector3.dot (orthogonalBase ⟨1, 1, 1⟩).1 (orthogonalBase ⟨1, 1, 1⟩).2 = 0
      ∧ Vector3.dot (orthogonalBase ⟨1, 1, 1⟩).1 ⟨1, 1, 1⟩ = 0
      ∧ Vector3.dot (orthogonalBase ⟨1, 1, 1⟩).2 ⟨1, 1, 1⟩ = 0 :=
  orthogonalBase_diagonal 1 (by norm_num)

theorem isParallel_nearlyParallelWave :
    Vector3.isParallel nearlyParallelWave n0 parallelTolerance := by
  have hd : Vector3.dot nearlyParallelWave n0 = 3000001 / 4000000 := by
    norm_num [Vector3.dot, nearlyParallelWave, n0]
  have hx : Vector3.mag2 (Vector3.cross nearlyParallelWave n0) = 2 / 4000000 ^ 2 := by
    norm_num [Vector3.mag2, Vector3.cross, nearlyParallelWave, n0]
  unfold Vector3.isParallel
  rw [hd, hx, if_neg (by norm_num), abs_of_pos (by norm_num)]
  norm_num [parallelTolerance]

/-- C4 (counterexample): the non-zero wavevector `(1/4, 1/4, 1/4 + 1/4000000)` passes the
parallel test, and the second base vector built for it is not perpendicular to it. -/
theorem orthogonalBase_nearlyParallel_not_perpendicular :
    nearlyParallelWave ≠ ⟨0, 0, 0⟩
      ∧ Vector3.isParallel nearlyParallelWave n0 parallelTolerance
      ∧ Vector3.dot (orthogonalBase nearlyParallelWave).2 nearlyParallelWave ≠ 0 := by
  refine ⟨?_, isParallel_nearlyParallelWave, ?_⟩
  · intro h
    have := congrArg Vector3.x h
    norm_num [nearlyParallelWave] at this
  · have hr : rawBase nearlyParallelWave = (⟨-1, 1, 0⟩, ⟨1, 1, -2⟩) := by
      unfold rawBase; rw [if_pos isParallel_nearlyParallelWave]
    have h2 : Vector3.mag (⟨1, 1, -2⟩ : Vector3) ≠ 0 := by
      rw [Ne, Vector3.mag_eq_zero_iff]; norm_num [Vector3.mag2]
    rw [(orthogonalBase_dot_wave nearlyParallelWave).2, hr]
    apply div_ne_zero _ h2
    norm_num [Vector3.dot, nearlyParallelWave]

/-- C4 (amended): for every non-zero wavevector neither division is by zero, both base
vectors have unit length and they are perpendicular to each other; both are perpendicular
to the wavevector when the cross-product branch is taken or the wavevector is exactly
`(c,c,c)`. -/
theorem orthogonalBase_valid (ek : Vector3) (hk : ek ≠ ⟨0, 0, 0⟩) :
    Vector3.mag (rawBase ek).1 ≠ 0 ∧ Vector3.mag (rawBase ek).2 ≠ 0
      ∧ Vector3.mag (orthogonalBase ek).1 = 1 ∧ Vector3.mag (orthogonalBase ek).2 = 1
      ∧ Vector3.dot (orthogonalBase ek).1 (orthogonalBase ek).2 = 0
      ∧ ((¬ Vector3.isParallel ek n0 parallelTolerance ∨ ∃ c : ℝ, ek = ⟨c, c, c⟩) →
          Vector3.dot (orthogonalBase ek).1 ek = 0
            ∧ Vector3.dot (orthogonalBase ek).2 ek = 0) := by
  obtain ⟨h1, h2, h3, h4⟩ := rawBase_facts ek hk
  refine ⟨h1, h2, Vector3.mag_divide_self _ h1, Vector3.mag_divide_self _ h2, ?_, ?_⟩
  · rw [orthogonalBase_dot, h3]; simp
  · intro h
    rw [(orthogonalBase_dot_wave ek).1, (orthogonalBase_dot_wave ek).2]
    by_cases hp : Vector3.isParallel ek n0 parallelTolerance
    · rcases h with h | ⟨c, hc⟩
      · exact absurd hp h
      · subst hc
        have hc0 : c ≠ 0 := by
          intro h0; subst h0; exact hk rfl
        rw [rawBase_diagonal c hc0]
        constructor
        · simp only [Vector3.dot]; ring
        · simp only [Vector3.dot]; ring
    · obtain ⟨h5, h6⟩ := h4 hp
      rw [h5, h6]; simp

/-- C4 (witness): the base built for the wavevector `(1,1,1)`. -/
theorem orthogonalBase_valid_witness :
    Vector3.mag (rawBase ⟨1, 1, 1⟩).1 ≠ 0 ∧ Vector3.mag (rawBase ⟨1, 1, 1⟩).2 ≠ 0
      ∧ Vector3.mag (orthogonalBase ⟨1, 1, 1⟩).1 = 1
      ∧ Vector3.mag (orthogonalBase ⟨1, 1, 1⟩).2 = 1
      ∧ Vector3.dot (orthogonalBase ⟨1, 1, 1⟩).1 (orthogonalBase ⟨1, 1, 1⟩).2 = 0
      ∧ ((¬ Vector3.isParallel ⟨1, 1, 1⟩ n0 parallelTolerance
            ∨ ∃ c : ℝ, (⟨1, 1, 1⟩ : Vector3) = ⟨c, c, c⟩) →
          Vector3.dot (orthogonalBase ⟨1, 1, 1⟩).1 ⟨1, 1, 1⟩ = 0
            ∧ Vector3.dot (orthogonalBase ⟨1, 1, 1⟩).2 ⟨1, 1, 1⟩ = 0) :=
  orthogonalBase_valid ⟨1, 1, 1⟩ (by
    intro h
    have := congrArg Vector3.x h
    norm_num at this)

/-! ## The coefficients written by the sampling loop -/

theorem visit_outside (R : Random) (p : Params) (ek : Vector3) (s : R.State)
    (h : outsideRange p (Vector3.mag ek)) : visit R p ek s = (Coefficient.zero, s) := by
  unfold visit; rw [if_pos h]

theorem visit_inside (R : Random) (p : Params) (ek : Vector3) (s : R.State)
    (h : ¬ outsideRange p (Vector3.mag ek)) :
    visit R p ek s
      = (emitted p ek (R.rand s).1 (R.randNorm (R.rand s).2).1
            (R.rand (R.randNorm (R.rand s).2).2).1,
          (R.rand (R.randNorm (R.rand s).2).2).2) := by
  unfold visit; rw [if_neg h]

/-- The real-part vector and the imaginary-part vector of an emitted coefficient are
perpendicular to the wavevector when both base vectors are. -/
theorem emitted_transverse (p : Params) (ek : Vector3) (u1 g u2 : ℝ)
    (h1 : Vector3.dot (orthogonalBase ek).1 ek = 0)
    (h2 : Vector3.dot (orthogonalBase ek).2 ek = 0) :
    Vector3.dot ⟨(emitted p ek u1 g u2).Bkx.1, (emitted p ek u1 g u2).Bky.1,
        (emitted p ek u1 g u2).Bkz.1⟩ ek = 0
      ∧ Vector3.dot ⟨(emitted p ek u1 g u2).Bkx.2, (emitted p ek u1 g u2).Bky.2,
        (emitted p ek u1 g u2).Bkz.2⟩ ek = 0 := by
  simp only [Vector3.dot] at h1 h2
  simp only [emitted, amplitude, orientation, Vector3.dot, Vector3.scale, Vector3.add]
  constructor
  · linear_combination
      (Real.cos (2 * Real.pi * u1) * (g * Vector3.mag ek ^ (p.powerSpectralIndex / 2))
          * Real.cos (2 * Real.pi * u2)) * h1
      + (Real.sin (2 * Real.pi * u1) * (g * Vector3.mag ek ^ (p.powerSpectralIndex / 2))
          * Real.cos (2 * Real.pi * u2)) * h2
  · linear_combination
      (Real.cos (2 * Real.pi * u1) * (g * Vector3.mag ek ^ (p.powerSpectralIndex / 2))
          * Real.sin (2 * Real.pi * u2)) * h1
      + (Real.sin (2 * Real.pi * u1) * (g * Vector3.mag ek ^ (p.powerSpectralIndex / 2))
          * Real.sin (2 * Real.pi * u2)) * h2

theorem waveVector_ne_zero_of_inside (p : Params) (ek : Vector3) (hmin : 0 < kMin p)
    (h : ¬ outsideRange p (Vector3.mag ek)) : ek ≠ ⟨0, 0, 0⟩ := by
  intro h0
  apply h
  left
  have : Vector3.mag ek = 0 := by
    rw [Vector3.mag_eq_zero_iff, Vector3.mag2_eq_zero_iff]; exact h0
  rw [this]; exact hmin

/-- C2: at every index of the half-grid whose wavevector passes the band test and takes the
cross-product branch, the real-part vector and the imaginary-part vector of the three
coefficients stored there have zero dot product with the wavevector, whatever the draws. -/
theorem spectrum_transverse (R : Random) (p : Params) (K : ℕ → ℝ) (s : R.State)
    (mem : Spectrum) (ix iy iz : ℕ) (hx : ix < p.samples) (hy : iy < p.samples)
    (hz : iz < n2 p.samples)
    (hband : ¬ outsideRange p (Vector3.mag (waveVector K (ix, iy, iz))))
    (hbranch : ¬ Vector3.isParallel (waveVector K (ix, iy, iz)) n0 parallelTolerance)
    (hcross : Vector3.cross n0 (waveVector K (ix, iy, iz)) ≠ ⟨0, 0, 0⟩) :
    Vector3.dot
        ⟨((sampleSpectrum R p K s mem).2 (spectrumIndex p.samples ix iy iz)).Bkx.1,
         ((sampleSpectrum R p K s mem).2 (spectrumIndex p.samples ix iy iz)).Bky.1,
         ((sampleSpectrum R p K s mem).2 (spectrumIndex p.samples ix iy iz)).Bkz.1⟩
        (waveVector K (ix, iy, iz)) = 0
      ∧ Vector3.dot
        ⟨((sampleSpectrum R p K s mem).2 (spectrumIndex p.samples ix iy iz)).Bkx.2,
         ((sampleSpectrum R p K s mem).2 (spectrumIndex p.samples ix iy iz)).Bky.2,
         ((sampleSpectrum R p K s mem).2 (spectrumIndex p.samples ix iy iz)).Bkz.2⟩
        (waveVector K (ix, iy, iz)) = 0 := by
  obtain ⟨s1, hs⟩ := sampleSpectrum_stored R p K s mem ix iy iz hx hy hz
  rw [hs, visit_inside R p _ s1 hband]
  have hr : rawBase (waveVector K (ix, iy, iz))
      = (Vector3.cross n0 (waveVector K (ix, iy, iz)),
          Vector3.cross (waveVector K (ix, iy, iz))
            (Vector3.cross n0 (waveVector K (ix, iy, iz)))) := by
    unfold rawBase; rw [if_neg hbranch]
  have hb := orthogonalBase_dot_wave (waveVector K (ix, iy, iz))
  rw [hr] at hb
  have _hc := hcross
  apply emitted_transverse
  · rw [hb.1, Vector3.dot_cross_right]; simp
  · rw [hb.2, Vector3.dot_cross_left]; simp

/-! ## Evaluation on the grid with 2 samples -/

theorem waveNumber_two_zero : waveNumber 2 0 = 0 := by
  norm_num [waveNumber]

theorem waveNumber_two_one : waveNumber 2 1 = -(1 / 2) := by
  norm_num [waveNumber]

theorem waveVector_two_100 : waveVector (waveNumber 2) (1, 0, 0) = ⟨-(1 / 2), 0, 0⟩ := by
  simp only [waveVector, waveNumber_two_zero, waveNumber_two_one]

theorem mag_wave_100 : Vector3.mag (⟨-(1 / 2), 0, 0⟩ : Vector3) = 1 / 2 := by
  unfold Vector3.mag
  have h : Vector3.mag2 (⟨-(1 / 2), 0, 0⟩ : Vector3) = (1 / 2) ^ 2 := by
    norm_num [Vector3.mag2]
  rw [h, Real.sqrt_sq (by norm_num)]

theorem inside_wave_100 : ¬ outsideRange smallParams (Vector3.mag (⟨-(1 / 2), 0, 0⟩ : Vector3)) := by
  rw [mag_wave_100]
  unfold outsideRange kMin kMax smallParams
  norm_num

theorem not_isParallel_wave_100 :
    ¬ Vector3.isParallel (⟨-(1 / 2), 0, 0⟩ : Vector3) n0 parallelTolerance := by
  have hd : Vector3.dot (⟨-(1 / 2), 0, 0⟩ : Vector3) n0 = -(1 / 2) := by
    norm_num [Vector3.dot, n0]
  have hx : Vector3.mag2 (Vector3.cross (⟨-(1 / 2), 0, 0⟩ : Vector3) n0) = 1 / 2 := by
    norm_num [Vector3.mag2, Vector3.cross, n0]
  unfold Vector3.isParallel
  rw [hd, hx, if_neg (by norm_num), abs_of_neg (by norm_num)]
  norm_num [parallelTolerance]

/-- C2 (witness): the coefficients stored at index `(1,0,0)` of the grid with 2 samples,
whose wavevector `(-1/2, 0, 0)` is inside the range and not parallel to `(1,1,1)`. -/
theorem spectrum_transverse_witness :
    Vector3.dot
        ⟨((sampleSpectrum constantSource smallParams (waveNumber 2) () zeroSpectrum).2
            (spectrumIndex smallParams.samples 1 0 0)).Bkx.1,
         ((sampleSpectrum constantSource smallParams (waveNumber 2) () zeroSpectrum).2
            (spectrumIndex smallParams.samples 1 0 0)).Bky.1,
         ((sampleSpectrum constantSource smallParams (waveNumber 2) () zeroSpectrum).2
            (spectrumIndex smallParams.samples 1 0 0)).Bkz.1⟩
        (waveVector (waveNumber 2) (1, 0, 0)) = 0
      ∧ Vector3.dot
        ⟨((sampleSpectrum constantSource smallParams (waveNumber 2) () zeroSpectrum).2
            (spectrumIndex smallParams.samples 1 0 0)).Bkx.2,
         ((sampleSpectrum constantSource smallParams (waveNumber 2) () zeroSpectrum).2
            (spectrumIndex smallParams.samples 1 0 0)).Bky.2,
         ((sampleSpectrum constantSource smallParams (waveNumber 2) () zeroSpectrum).2
            (spectrumIndex smallParams.samples 1 0 0)).Bkz.2⟩
        (waveVector (waveNumber 2) (1, 0, 0)) = 0 :=
  spectrum_transverse constantSource smallParams (waveNumber 2) () zeroSpectrum 1 0 0
    (by norm_num [smallParams]) (by norm_num [smallParams]) (by norm_num [smallParams, n2])
    (by rw [waveVector_two_100]; exact inside_wave_100)
    (by rw [waveVector_two_100]; exact not_isParallel_wave_100)
    (by
      rw [waveVector_two_100]
      intro h
      have := congrArg Vector3.y h
      norm_num [Vector3.cross, n0] at this)

/-- C6: with `kMin = spacing / lMax` and `kMax = spacing / lMin`, the six numbers stored at
an index of the half-grid are zero when `|k| < kMin` or `|k| > kMax`, and are the sampled
values of a visit (its three draws taken from the random source) when
`kMin ≤ |k| ≤ kMax`. -/
theorem band_cutoff (R : Random) (p : Params) (K : ℕ → ℝ) (s : R.State) (mem : Spectrum)
    (ix iy iz : ℕ) (hx : ix < p.samples) (hy : iy < p.samples) (hz : iz < n2 p.samples) :
    ((Vector3.mag (waveVector K (ix, iy, iz)) < p.spacing / p.lMax
          ∨ Vector3.mag (waveVector K (ix, iy, iz)) > p.spacing / p.lMin) →
        (sampleSpectrum R p K s mem).2 (spectrumIndex p.samples ix iy iz)
          = ⟨(0, 0), (0, 0), (0, 0)⟩)
      ∧ ((p.spacing / p.lMax ≤ Vector3.mag (waveVector K (ix, iy, iz))
          ∧ Vector3.mag (waveVector K (ix, iy, iz)) ≤ p.spacing / p.lMin) →
        ∃ s1 : R.State,
          (sampleSpectrum R p K s mem).2 (spectrumIndex p.samples ix iy iz)
            = emitted p (waveVector K (ix, iy, iz)) (R.rand s1).1
                (R.randNorm (R.rand s1).2).1 (R.rand (R.randNorm (R.rand s1).2).2).1) := by
  obtain ⟨s1, hs⟩ := sampleSpectrum_stored R p K s mem ix iy iz hx hy hz
  constructor
  · intro h
    rw [hs, visit_outside R p _ s1 h]
    rfl
  · intro h
    have hin : ¬ outsideRange p (Vector3.mag (waveVector K (ix, iy, iz))) := by
      unfold outsideRange kMin kMax
      rintro (h1 | h1)
      · exact absurd h.1 (not_le.2 h1)
      · exact absurd h.2 (not_le.2 h1)
    exact ⟨s1, by rw [hs, visit_inside R p _ s1 hin]⟩

/-- C6 (witness): the band cutoff at index `(1,0,0)` of the grid with 2 samples. -/
theorem band_cutoff_witness :
    ((Vector3.mag (waveVector (waveNumber 2) (1, 0, 0)) < smallParams.spacing / smallParams.lMax
          ∨ Vector3.mag (waveVector (waveNumber 2) (1, 0, 0))
              > smallParams.spacing / smallParams.lMin) →
        (sampleSpectrum constantSource smallParams (waveNumber 2) () zeroSpectrum).2
            (spectrumIndex smallParams.samples 1 0 0)
          = ⟨(0, 0), (0, 0), (0, 0)⟩)
      ∧ ((smallParams.spacing / smallParams.lMax ≤ Vector3.mag (waveVector (waveNumber 2) (1, 0, 0))
          ∧ Vector3.mag (waveVector (waveNumber 2) (1, 0, 0))
              ≤ smallParams.spacing / smallParams.lMin) →
        ∃ s1 : constantSource.State,
          (sampleSpectrum constantSource smallParams (waveNumber 2) () zeroSpectrum).2
              (spectrumIndex smallParams.samples 1 0 0)
            = emitted smallParams (waveVector (waveNumber 2) (1, 0, 0))
                (constantSource.rand s1).1
                (constantSource.randNorm (constantSource.rand s1).2).1
                (constantSource.rand
                  (constantSource.randNorm (constantSource.rand s1).2).2).1) :=
  band_cutoff constantSource smallParams (waveNumber 2) () zeroSpectrum 1 0 0
    (by norm_num [smallParams]) (by norm_num [smallParams]) (by norm_num [smallParams, n2])

/-! ## Hermitian symmetry of the sampled spectrum -/

theorem waveNumbers_of_two_le (n : ℕ) (hn : 2 ≤ n) : waveNumbers n = some (waveNumber n) := by
  unfold waveNumbers
  rw [if_neg]
  rintro ⟨_, h⟩
  omega

theorem waveNumber_zero (n : ℕ) : waveNumber n 0 = 0 := by
  simp [waveNumber]

/-- With at least 2 samples, a positive spacing and `0 < lMin < lMax`, the table has
`K[0] = 0`, the wavevector at index `(0,0,0)` has magnitude `0 < kMin`, it is outside the
range, and the three coefficients stored for it are zero. -/
theorem zero_wave_outside (R : Random) (p : Params) (s : R.State) (mem : Spectrum)
    (hn : 2 ≤ p.samples) (hs : 0 < p.spacing) (hl : 0 < p.lMin) (hlt : p.lMin < p.lMax) :
    waveNumbers p.samples = some (waveNumber p.samples)
      ∧ waveNumber p.samples 0 = 0
      ∧ Vector3.mag (waveVector (waveNumber p.samples) (0, 0, 0)) = 0
      ∧ 0 < kMin p
      ∧ outsideRange p (Vector3.mag (waveVector (waveNumber p.samples) (0, 0, 0)))
      ∧ (sampleSpectrum R p (waveNumber p.samples) s mem).2 (spectrumIndex p.samples 0 0 0)
          = Coefficient.zero := by
  have hmag : Vector3.mag (waveVector (waveNumber p.samples) (0, 0, 0)) = 0 := by
    simp [Vector3.mag, Vector3.mag2, waveVector, waveNumber_zero]
  have hk : 0 < kMin p := div_pos hs (lt_trans hl hlt)
  have hout : outsideRange p (Vector3.mag (waveVector (waveNumber p.samples) (0, 0, 0))) := by
    rw [hmag]; exact Or.inl hk
  obtain ⟨s1, hs1⟩ := sampleSpectrum_stored R p (waveNumber p.samples) s mem 0 0 0
    (by omega) (by omega) (by unfold n2; omega)
  exact ⟨waveNumbers_of_two_le _ hn, waveNumber_zero _, hmag, hk, hout,
    by rw [hs1, visit_outside R p _ s1 hout]⟩

/-- C7 (failing input): with `samples = 1`, `spacing = 1`, `lMin = 1`, `lMax = 4` the table
of wave numbers divides the integer `0` by `n / 2 = 0`: there is no table, no `K[0]`, and
`initialize` ends in the integer division by zero. -/
theorem zero_wave_one_sample :
    0 < oneSampleParams.samples ∧ 0 < oneSampleParams.spacing
      ∧ 0 < oneSampleParams.lMin ∧ oneSampleParams.lMin < oneSampleParams.lMax
      ∧ oneSampleParams.samples / 2 = 0
      ∧ waveNumbers oneSampleParams.samples = none
      ∧ initializeGrid constantSource inverseTransform oneSampleParams zeroSpectrum ()
          = Outcome.integerDivisionByZero := by
  have hw : waveNumbers oneSampleParams.samples = none := by
    simp [waveNumbers, oneSampleParams]
  refine ⟨by norm_num [oneSampleParams], by norm_num [oneSampleParams],
    by norm_num [oneSampleParams], by norm_num [oneSampleParams],
    by norm_num [oneSampleParams], hw, ?_⟩
  unfold initializeGrid
  rw [hw]

/-! ## Normalisation -/

theorem sumB2_nonneg (n : ℕ) (Bx By Bz : ℤ → ℝ) : 0 ≤ sumB2 n Bx By Bz := by
  unfold sumB2
  refine Finset.sum_nonneg fun ix _ => Finset.sum_nonneg fun iy _ =>
    Finset.sum_nonneg fun iz _ => ?_
  positivity

theorem meanSquare_nonneg (n : ℕ) (Bx By Bz : ℤ → ℝ) : 0 ≤ meanSquare n Bx By Bz := by
  unfold meanSquare
  exact div_nonneg (sumB2_nonneg n Bx By Bz) (Nat.cast_nonneg _)

theorem gridMeanSquare_gridCell (n : ℕ) (Brms : ℝ) (Bx By Bz : ℤ → ℝ) :
    gridMeanSquare n (gridCell n Brms Bx By Bz)
      = weight n Brms Bx By Bz ^ 2 * meanSquare n Bx By Bz := by
  have hterm : ∀ a b c w : ℝ, (a * w) ^ 2 + (b * w) ^ 2 + (c * w) ^ 2
      = w ^ 2 * (a ^ 2 + b ^ 2 + c ^ 2) := by
    intro a b c w; ring
  simp only [gridMeanSquare, gridCell, Vector3.scale, hterm, ← Finset.mul_sum]
  unfold meanSquare sumB2
  push_cast
  ring

theorem gridMeanSquare_of_ne_zero (n : ℕ) (Brms : ℝ) (Bx By Bz : ℤ → ℝ)
    (h : meanSquare n Bx By Bz ≠ 0) :
    gridMeanSquare n (gridCell n Brms Bx By Bz) = Brms ^ 2 := by
  rw [gridMeanSquare_gridCell]
  unfold weight
  rw [div_pow, Real.sq_sqrt (meanSquare_nonneg n Bx By Bz)]
  field_simp

/-- Every grid that `initialize` stores has mean squared magnitude `Brms²`. -/
theorem initializeGrid_stored_mean_square (R : Random) (c2r : Transform) (p : Params)
    (mem : Spectrum) (s : R.State) (grid : ℕ → ℕ → ℕ → Vector3)
    (h : initializeGrid R c2r p mem s = Outcome.stored grid) :
    gridMeanSquare p.samples grid = p.Brms ^ 2 := by
  unfold initializeGrid at h
  split at h
  · exact absurd h (by simp)
  · split at h
    · exact absurd h (by simp)
    · rename_i hne
      injection h with hg
      rw [← hg]
      exact gridMeanSquare_of_ne_zero _ _ _ _ _ hne

/-- C1: whenever the mean square `sumB2 / n³` of the transformed field is non-zero, the grid
stored after scaling every cell by `weight = Brms / sqrt(sumB2 / n³)` has mean squared
magnitude `(1/n³) Σ (Bx² + By² + Bz²)` equal to `Brms²`, for every `n`, every `Brms` and
every content of the three real buffers. -/
theorem normalized_mean_square (n : ℕ) (Brms : ℝ) (Bx By Bz : ℤ → ℝ)
    (h : meanSquare n Bx By Bz ≠ 0) :
    gridMeanSquare n (gridCell n Brms Bx By Bz) = Brms ^ 2 :=
  gridMeanSquare_of_ne_zero n Brms Bx By Bz h

/-- C1 (witness): on the grid with 2 samples whose cells all hold `(1, 0, 0)` the mean
square is non-zero and the stored grid for `Brms = 3` has mean squared magnitude `9`. -/
theorem normalized_mean_square_witness :
    meanSquare 2 unitBuffer zeroBuffer zeroBuffer ≠ 0
      ∧ gridMeanSquare 2 (gridCell 2 3 unitBuffer zeroBuffer zeroBuffer) = 3 ^ 2 :=
  ⟨by norm_num [meanSquare, sumB2, unitBuffer, zeroBuffer, Finset.sum_range_succ],
    normalized_mean_square 2 3 unitBuffer zeroBuffer zeroBuffer
      (by norm_num [meanSquare, sumB2, unitBuffer, zeroBuffer, Finset.sum_range_succ])⟩

/-! ## The empty turbulent range -/

theorem inverseTransform_zero (n : ℕ) (Bk : ℕ → ℝ × ℝ)
    (h : ∀ ix iy iz, ix < n → iy < n → iz < n2 n → Bk (spectrumIndex n ix iy iz) = (0, 0))
    (j : ℤ) : inverseTransform n Bk j = 0 := by
  unfold inverseTransform
  refine Finset.sum_eq_zero fun kx hkx => Finset.sum_eq_zero fun ky hky =>
    Finset.sum_eq_zero fun kz hkz => ?_
  rw [Finset.mem_range] at hkx hky hkz
  by_cases hz : kz < n2 n
  · rw [if_pos hz, if_pos hz, h kx ky kz hkx hky hz]; simp
  · have hm := h ((n - kx) % n) ((n - ky) % n) (n - kz) (Nat.mod_lt _ (by omega))
      (Nat.mod_lt _ (by omega)) (by unfold n2 at *; omega)
    rw [if_neg hz, if_neg hz, hm]; simp

theorem meanSquare_eq_zero (n : ℕ) (Bx By Bz : ℤ → ℝ)
    (hx : ∀ ix iy iz, ix < n → iy < n → iz < n → Bx (realIndex n ix iy iz) = 0)
    (hy : ∀ ix iy iz, ix < n → iy < n → iz < n → By (realIndex n ix iy iz) = 0)
    (hz : ∀ ix iy iz, ix < n → iy < n → iz < n → Bz (realIndex n ix iy iz) = 0) :
    meanSquare n Bx By Bz = 0 := by
  have hs : sumB2 n Bx By Bz = 0 := by
    unfold sumB2
    refine Finset.sum_eq_zero fun ix hix => Finset.sum_eq_zero fun iy hiy =>
      Finset.sum_eq_zero fun iz hiz => ?_
    rw [Finset.mem_range] at hix hiy hiz
    rw [hx ix iy iz hix hiy hiz, hy ix iy iz hix hiy hiz, hz ix iy iz hix hiy hiz]
    norm_num
  unfold meanSquare
  rw [hs, zero_div]

/-- With no wavevector of the half-grid inside the range and a transform that maps zero
coefficients to zero cells, every stored coefficient is zero, the mean square is zero and
`initialize` evaluates the weight with it. -/
theorem initializeGrid_empty_band (R : Random) (c2r : Transform) (p : Params)
    (mem : Spectrum) (s : R.State) (hn : 2 ≤ p.samples)
    (hempty : ∀ ix iy iz, ix < p.samples → iy < p.samples → iz < n2 p.samples →
      outsideRange p (Vector3.mag (waveVector (waveNumber p.samples) (ix, iy, iz))))
    (hc2r : ∀ Bk : ℕ → ℝ × ℝ,
      (∀ ix iy iz, ix < p.samples → iy < p.samples → iz < n2 p.samples →
        Bk (spectrumIndex p.samples ix iy iz) = (0, 0)) →
      ∀ ix iy iz, ix < p.samples → iy < p.samples → iz < p.samples →
        c2r p.samples Bk (realIndex p.samples ix iy iz) = 0) :
    (∀ ix iy iz, ix < p.samples → iy < p.samples → iz < n2 p.samples →
        (sampleSpectrum R p (waveNumber p.samples) s mem).2 (spectrumIndex p.samples ix iy iz)
          = Coefficient.zero)
      ∧ initializeGrid R c2r p mem s = Outcome.zeroMeanSquare := by
  have hzero : ∀ ix iy iz, ix < p.samples → iy < p.samples → iz < n2 p.samples →
      (sampleSpectrum R p (waveNumber p.samples) s mem).2 (spectrumIndex p.samples ix iy iz)
        = Coefficient.zero := by
    intro ix iy iz hx hy hz
    obtain ⟨s1, hs1⟩ := sampleSpectrum_stored R p (waveNumber p.samples) s mem ix iy iz hx hy hz
    rw [hs1, visit_outside R p _ s1 (hempty ix iy iz hx hy hz)]
  refine ⟨hzero, ?_⟩
  unfold initializeGrid
  rw [waveNumbers_of_two_le _ hn]
  simp only
  rw [if_pos]
  apply meanSquare_eq_zero
  · exact hc2r _ (fun ix iy iz hx hy hz => by rw [hzero ix iy iz hx hy hz]; rfl)
  · exact hc2r _ (fun ix iy iz hx hy hz => by rw [hzero ix iy iz hx hy hz]; rfl)
  · exact hc2r _ (fun ix iy iz hx hy hz => by rw [hzero ix iy iz hx hy hz]; rfl)

theorem waveNumber_two_sq_le (i : ℕ) (hi : i < 2) :
    waveNumber 2 i * waveNumber 2 i ≤ 1 / 4 := by
  interval_cases i
  · rw [waveNumber_two_zero]; norm_num
  · rw [waveNumber_two_one]; norm_num

theorem emptyBandParams_empty (ix iy iz : ℕ) (hx : ix < emptyBandParams.samples)
    (hy : iy < emptyBandParams.samples) (hz : iz < n2 emptyBandParams.samples) :
    outsideRange emptyBandParams
      (Vector3.mag (waveVector (waveNumber emptyBandParams.samples) (ix, iy, iz))) := by
  have hs : emptyBandParams.samples = 2 := rfl
  rw [hs] at hx hy hz ⊢
  have hz2 : iz < 2 := by simpa [n2] using hz
  left
  have hk : kMin emptyBandParams = 2 := by norm_num [kMin, emptyBandParams]
  rw [hk]
  unfold Vector3.mag
  rw [Real.sqrt_lt' (by norm_num)]
  simp only [Vector3.mag2, waveVector]
  have h1 := waveNumber_two_sq_le ix hx
  have h2 := waveNumber_two_sq_le iy hy
  have h3 := waveNumber_two_sq_le iz hz2
  linarith

theorem inverseTransform_zero_cells (n : ℕ) (Bk : ℕ → ℝ × ℝ)
    (h : ∀ ix iy iz, ix < n → iy < n → iz < n2 n → Bk (spectrumIndex n ix iy iz) = (0, 0))
    (ix iy iz : ℕ) (_hx : ix < n) (_hy : iy < n) (_hz : iz < n) :
    inverseTransform n Bk (realIndex n ix iy iz) = 0 :=
  inverseTransform_zero n Bk h _

/-- C8 (counterexample): with 2 samples, spacing 1, `lMin = 1/4` and `lMax = 1/2` no
wavevector of the half-grid is inside the range `[2, 4]`, yet `initialize` does not end in a
configuration error: it evaluates the weight with a zero mean square. -/
theorem empty_band_reaches_weight :
    (∀ ix iy iz, ix < emptyBandParams.samples → iy < emptyBandParams.samples →
        iz < n2 emptyBandParams.samples →
        outsideRange emptyBandParams
          (Vector3.mag (waveVector (waveNumber emptyBandParams.samples) (ix, iy, iz))))
      ∧ initializeGrid constantSource inverseTransform emptyBandParams zeroSpectrum ()
          ≠ Outcome.configurationError
      ∧ initializeGrid constantSource inverseTransform emptyBandParams zeroSpectrum ()
          = Outcome.zeroMeanSquare := by
  have h := (initializeGrid_empty_band constantSource inverseTransform emptyBandParams
    zeroSpectrum () (by norm_num [emptyBandParams]) emptyBandParams_empty
    (inverseTransform_zero_cells emptyBandParams.samples)).2
  refine ⟨emptyBandParams_empty, ?_, h⟩
  rw [h]
  simp

/-- C8 (amended): when no wavevector of the half-grid is inside the range (at least 2
samples, and a transform that maps zero coefficients to zero cells), `initialize` does not
reject the parameters: every coefficient is stored as zero, the transforms run, and the
weight `Brms / sqrt(sumB2 / n³)` is evaluated with a zero mean square. -/
theorem empty_band_zero_mean_square (R : Random) (c2r : Transform) (p : Params)
    (mem : Spectrum) (s : R.State) (hn : 2 ≤ p.samples)
    (hempty : ∀ ix iy iz, ix < p.samples → iy < p.samples → iz < n2 p.samples →
      outsideRange p (Vector3.mag (waveVector (waveNumber p.samples) (ix, iy, iz))))
    (hc2r : ∀ Bk : ℕ → ℝ × ℝ,
      (∀ ix iy iz, ix < p.samples → iy < p.samples → iz < n2 p.samples →
        Bk (spectrumIndex p.samples ix iy iz) = (0, 0)) →
      ∀ ix iy iz, ix < p.samples → iy < p.samples → iz < p.samples →
        c2r p.samples Bk (realIndex p.samples ix iy iz) = 0) :
    (∀ ix iy iz, ix < p.samples → iy < p.samples → iz < n2 p.samples →
        (sampleSpectrum R p (waveNumber p.samples) s mem).2 (spectrumIndex p.samples ix iy iz)
          = Coefficient.zero)
      ∧ initializeGrid R c2r p mem s = Outcome.zeroMeanSquare
      ∧ initializeGrid R c2r p mem s ≠ Outcome.configurationError := by
  obtain ⟨h1, h2⟩ := initializeGrid_empty_band R c2r p mem s hn hempty hc2r
  refine ⟨h1, h2, ?_⟩
  rw [h2]
  simp

/-- C8 (witness): the grid with 2 samples, spacing 1, `lMin = 1/4` and `lMax = 1/2`, with
the modelled inverse transform. -/
theorem empty_band_zero_mean_square_witness :
    (∀ ix iy iz, ix < emptyBandParams.samples → iy < emptyBandParams.samples →
        iz < n2 emptyBandParams.samples →
        (sampleSpectrum constantSource emptyBandParams (waveNumber emptyBandParams.samples) ()
            zeroSpectrum).2 (spectrumIndex emptyBandParams.samples ix iy iz)
          = Coefficient.zero)
      ∧ initializeGrid constantSource inverseTransform emptyBandParams zeroSpectrum ()
          = Outcome.zeroMeanSquare
      ∧ initializeGrid constantSource inverseTransform emptyBandParams zeroSpectrum ()
          ≠ Outcome.configurationError :=
  empty_band_zero_mean_square constantSource inverseTransform emptyBandParams zeroSpectrum ()
    (by norm_num [emptyBandParams]) emptyBandParams_empty
    (inverseTransform_zero_cells emptyBandParams.samples)

/-! ## Parameter validation -/

theorem initializeGrid_ne_configurationError (R : Random) (c2r : Transform) (p : Params)
    (mem : Spectrum) (s : R.State) :
    initializeGrid R c2r p mem s ≠ Outcome.configurationError := by
  unfold initializeGrid
  split
  · simp
  · split <;> simp

/-- C9 (counterexample): the constructor called with `lMin = lMax = 2` (2 samples,
spacing 1) does not end in a configuration error; it runs `initialize`, whose loop samples
the wavevector at index `(1,0,0)`. -/
theorem construct_equal_scales_not_rejected :
    equalScaleParams.lMin ≥ equalScaleParams.lMax
      ∧ construct constantSource inverseTransform equalScaleParams zeroSpectrum ()
          ≠ Outcome.configurationError
      ∧ ¬ outsideRange equalScaleParams
          (Vector3.mag (waveVector (waveNumber equalScaleParams.samples) (1, 0, 0))) := by
  refine ⟨by norm_num [equalScaleParams], initializeGrid_ne_configurationError _ _ _ _ _, ?_⟩
  have hs : equalScaleParams.samples = 2 := rfl
  rw [hs, waveVector_two_100, mag_wave_100]
  unfold outsideRange kMin kMax equalScaleParams
  norm_num

/-- C9 (amended): the constructor validates nothing: for every parameter set, also with
`lMin ≥ lMax`, `samples = 0`, `spacing ≤ 0`, `Brms ≤ 0` or an empty range, it stores the
parameters and runs `initialize`, and it never ends in a configuration error. -/
theorem construct_runs_initialize (R : Random) (c2r : Transform) (p : Params)
    (mem : Spectrum) (s : R.State) :
    construct R c2r p mem s = initializeGrid R c2r p mem s
      ∧ construct R c2r p mem s ≠ Outcome.configurationError :=
  ⟨rfl, initializeGrid_ne_configurationError R c2r p mem s⟩

/-! ## The correlation length -/

theorem rpow_slope_tendsto (b : ℝ) :
    Filter.Tendsto (fun r : ℝ => (r - 1)⁻¹ * (r ^ b - 1)) (nhdsWithin 1 {1}ᶜ) (nhds b) := by
  have hd : HasDerivAt (fun x : ℝ => x ^ b) (b * (1 : ℝ) ^ (b - 1)) 1 :=
    Real.hasDerivAt_rpow_const (Or.inl one_ne_zero)
  rw [Real.one_rpow, mul_one] at hd
  have h := hasDerivAt_iff_tendsto_slope.1 hd
  refine h.congr (fun r => ?_)
  simp [slope, Real.one_rpow]

theorem rpow_ratio_tendsto (a : ℝ) (ha1 : a ≠ 1) :
    Filter.Tendsto (fun r : ℝ => (1 - r ^ a) / (1 - r ^ (a - 1))) (nhdsWithin 1 {1}ᶜ)
      (nhds (a / (a - 1))) := by
  have h := (rpow_slope_tendsto a).div (rpow_slope_tendsto (a - 1)) (sub_ne_zero.2 ha1)
  refine h.congr' ?_
  filter_upwards [self_mem_nhdsWithin] with r hr
  have hr1 : r - 1 ≠ 0 := sub_ne_zero.2 hr
  simp only [Pi.div_apply]
  rw [mul_div_mul_left _ _ (inv_ne_zero hr1), ← neg_sub 1 (r ^ a), ← neg_sub 1 (r ^ (a - 1)),
    neg_div_neg_eq]

theorem correlationLength_tendsto_aux (L a : ℝ) (hL : 0 < L) (ha0 : a ≠ 0) (ha1 : a ≠ 1) :
    Filter.Tendsto
      (fun x : ℝ => L / 2 * (a - 1) / a * (1 - (x / L) ^ a) / (1 - (x / L) ^ (a - 1)))
      (nhdsWithin L (Set.Iio L)) (nhds (L / 2)) := by
  have hdiv : Filter.Tendsto (fun x : ℝ => x / L) (nhdsWithin L (Set.Iio L))
      (nhdsWithin 1 {1}ᶜ) := by
    apply tendsto_nhdsWithin_of_tendsto_nhds_of_eventually_within
    · have hc : Filter.Tendsto (fun x : ℝ => x / L) (nhds L) (nhds (L / L)) :=
        (continuous_id.div_const L).tendsto L
      rw [div_self (ne_of_gt hL)] at hc
      exact hc.mono_left nhdsWithin_le_nhds
    · filter_upwards [self_mem_nhdsWithin] with x hx
      have hx1 : x / L < 1 := (div_lt_one hL).2 hx
      exact ne_of_lt hx1
  have h := ((rpow_ratio_tendsto a ha1).comp hdiv).const_mul (L / 2 * (a - 1) / a)
  have hlim : L / 2 * (a - 1) / a * (a / (a - 1)) = L / 2 := by
    have : a - 1 ≠ 0 := sub_ne_zero.2 ha1
    field_simp
    ring
  rw [hlim] at h
  refine h.congr (fun x => ?_)
  simp only [Function.comp]
  ring

/-- C10: `getCorrelationLength` returns `lMax/2 · (a-1)/a · (1 - r^a) / (1 - r^(a-1))` with
`r = lMin/lMax` and `a = -spectralIndex - 2`; for `lMax > 0` and `a` neither `0` nor `1`
this value tends to `lMax/2` as `lMin` tends to `lMax` from below. -/
theorem correlationLength_limit (p : Params) (hL : 0 < p.lMax)
    (ha0 : -p.powerSpectralIndex - 2 ≠ 0) (ha1 : -p.powerSpectralIndex - 2 ≠ 1) :
    (∀ q : Params, getCorrelationLength q
        = q.lMax / 2 * ((-q.powerSpectralIndex - 2) - 1) / (-q.powerSpectralIndex - 2)
            * (1 - (q.lMin / q.lMax) ^ (-q.powerSpectralIndex - 2))
            / (1 - (q.lMin / q.lMax) ^ ((-q.powerSpectralIndex - 2) - 1)))
      ∧ Filter.Tendsto
          (fun lMin : ℝ => getCorrelationLength
            ⟨p.samples, p.spacing, lMin, p.lMax, p.Brms, p.powerSpectralIndex⟩)
          (nhdsWithin p.lMax (Set.Iio p.lMax)) (nhds (p.lMax / 2)) :=
  ⟨fun _ => rfl,
    correlationLength_tendsto_aux p.lMax (-p.powerSpectralIndex - 2) hL ha0 ha1⟩

/-- C10 (witness): the Kolmogorov index `-11/3` with `lMax = 4`, where `a = 5/3`. -/
theorem correlationLength_limit_witness :
    (∀ q : Params, getCorrelationLength q
        = q.lMax / 2 * ((-q.powerSpectralIndex - 2) - 1) / (-q.powerSpectralIndex - 2)
            * (1 - (q.lMin / q.lMax) ^ (-q.powerSpectralIndex - 2))
            / (1 - (q.lMin / q.lMax) ^ ((-q.powerSpectralIndex - 2) - 1)))
      ∧ Filter.Tendsto
          (fun lMin : ℝ => getCorrelationLength
            ⟨kolmogorovParams.samples, kolmogorovParams.spacing, lMin, kolmogorovParams.lMax,
              kolmogorovParams.Brms, kolmogorovParams.powerSpectralIndex⟩)
          (nhdsWithin kolmogorovParams.lMax (Set.Iio kolmogorovParams.lMax))
          (nhds (kolmogorovParams.lMax / 2)) :=
  correlationLength_limit kolmogorovParams (by norm_num [kolmogorovParams])
    (by norm_num [kolmogorovParams]) (by norm_num [kolmogorovParams])


/-! ## The wave-number table -/

/-- For an even number of samples the table holds the signed discrete frequencies. -/
theorem waveNumber_even (m i : ℕ) (hi : i < 2 * m) :
    (2 * i < 2 * m → waveNumber (2 * m) i = (i : ℝ) / ((2 * m : ℕ) : ℝ))
      ∧ (¬ 2 * i < 2 * m → waveNumber (2 * m) i = (i : ℝ) / ((2 * m : ℕ) : ℝ) - 1)
      ∧ -(1 / 2) ≤ waveNumber (2 * m) i ∧ waveNumber (2 * m) i < 1 / 2 := by
  have hm : 0 < m := by omega
  have hhalf : 2 * m / 2 = m := by omega
  have hmR : (0 : ℝ) < (m : ℝ) := by exact_mod_cast hm
  have hiR : (i : ℝ) < 2 * (m : ℝ) := by exact_mod_cast hi
  have hi0 : (0 : ℝ) ≤ (i : ℝ) := Nat.cast_nonneg i
  unfold waveNumber
  rw [hhalf]
  push_cast
  by_cases h : i < m
  · have q : i / m = 0 := Nat.div_eq_of_lt h
    have hR : (i : ℝ) < (m : ℝ) := by exact_mod_cast h
    rw [q]
    refine ⟨fun _ => by simp, fun h2 => absurd (by omega) h2, ?_, ?_⟩
    · have : 0 ≤ (i : ℝ) / (2 * (m : ℝ)) := by positivity
      simp only [Nat.cast_zero, sub_zero]
      linarith
    · simp only [Nat.cast_zero, sub_zero]
      rw [div_lt_iff₀ (by positivity)]
      linarith
  · have q : i / m = 1 := Nat.div_eq_of_lt_le (by omega) (by omega)
    have hR : (m : ℝ) ≤ (i : ℝ) := by exact_mod_cast (not_lt.1 h)
    rw [q]
    refine ⟨fun h2 => absurd (by omega) h, fun _ => by simp, ?_, ?_⟩
    · simp only [Nat.cast_one]
      have : 1 / 2 ≤ (i : ℝ) / (2 * (m : ℝ)) := by
        rw [le_div_iff₀ (by positivity)]; linarith
      linarith
    · simp only [Nat.cast_one]
      have : (i : ℝ) / (2 * (m : ℝ)) < 1 := by
        rw [div_lt_iff₀ (by positivity)]; linarith
      linarith

/-- C15 (failing input): with 3 samples the table is `K = [0, -2/3, -4/3]`: `K[1]` is not
`1/3` and `K[2]` is not `-1/3` and lies below `-1/2`; with 1 sample the divisor `n / 2` of the
integer quotient is zero and there is no table. -/
theorem waveNumber_odd_samples :
    waveNumber 3 0 = 0 ∧ waveNumber 3 1 = -(2 / 3) ∧ waveNumber 3 2 = -(4 / 3)
      ∧ ¬ (-(1 / 2) ≤ waveNumber 3 2)
      ∧ (1 : ℕ) / 2 = 0 ∧ waveNumbers 1 = none := by
  have h0 : waveNumber 3 0 = 0 := by norm_num [waveNumber]
  have h1 : waveNumber 3 1 = -(2 / 3) := by norm_num [waveNumber]
  have h2 : waveNumber 3 2 = -(4 / 3) := by norm_num [waveNumber]
  refine ⟨h0, h1, h2, ?_, by norm_num, by simp [waveNumbers]⟩
  rw [h2]; norm_num

/-! ## Coverage of the buffers -/

theorem range_mul_flatMap (a b : ℕ) :
    (List.range a).flatMap (fun i => (List.range b).map (fun j => i * b + j))
      = List.range (a * b) := by
  induction a with
  | zero => simp
  | succ a ih =>
    rw [List.range_succ, List.flatMap_append, ih, List.flatMap_singleton, Nat.succ_mul,
      List.range_add]

theorem map_spectrumIndex_halfGrid (n : ℕ) :
    (halfGrid n).map (fun idx => spectrumIndex n idx.1 idx.2.1 idx.2.2)
      = List.range (n * n * n2 n) := by
  have h1 : (halfGrid n).map (fun idx => spectrumIndex n idx.1 idx.2.1 idx.2.2)
      = ((List.range n).flatMap (fun ix => (List.range n).map (fun iy => ix * n + iy))).flatMap
          (fun r => (List.range (n2 n)).map (fun iz => r * n2 n + iz)) := by
    unfold halfGrid
    rw [List.map_flatMap, List.flatMap_assoc]
    congr 1
    funext ix
    rw [List.map_flatMap, List.flatMap_map]
    congr 1
    funext iy
    rw [List.map_map]
    congr 1
    funext iz
    simp only [Function.comp, spectrumIndex]
    ring
  rw [h1, range_mul_flatMap, range_mul_flatMap]

theorem spectrumIndex_lt (n ix iy iz : ℕ) (hx : ix < n) (hy : iy < n) (hz : iz < n2 n) :
    spectrumIndex n ix iy iz < n * n * n2 n := by
  have h : spectrumIndex n ix iy iz ∈ List.range (n * n * n2 n) := by
    rw [← map_spectrumIndex_halfGrid]
    exact List.mem_map.2 ⟨(ix, iy, iz), (mem_halfGrid _ _ _ _).2 ⟨hx, hy, hz⟩, rfl⟩
  exact List.mem_range.1 h

theorem spectrumIndex_surj (n i : ℕ) (hi : i < n * n * n2 n) :
    ∃ ix iy iz, ix < n ∧ iy < n ∧ iz < n2 n ∧ spectrumIndex n ix iy iz = i := by
  have h : i ∈ (halfGrid n).map (fun idx => spectrumIndex n idx.1 idx.2.1 idx.2.2) := by
    rw [map_spectrumIndex_halfGrid]; exact List.mem_range.2 hi
  obtain ⟨⟨ix, iy, iz⟩, hmem, hidx⟩ := List.mem_map.1 h
  obtain ⟨hx, hy, hz⟩ := (mem_halfGrid _ _ _ _).1 hmem
  exact ⟨ix, iy, iz, hx, hy, hz, hidx⟩

/-- A flat index that no triple of the list maps to keeps its content. -/
theorem foldl_sampleStep_untouched (R : Random) (p : Params) (K : ℕ → ℝ)
    (L : List (ℕ × ℕ × ℕ)) (st : R.State × Spectrum) (j : ℕ)
    (h : ∀ idx ∈ L, spectrumIndex p.samples idx.1 idx.2.1 idx.2.2 ≠ j) :
    (L.foldl (sampleStep R p K) st).2 j = st.2 j := by
  induction L using List.reverseRecOn with
  | nil => rfl
  | append_singleton L a ih =>
    rw [List.foldl_append, List.foldl_cons, List.foldl_nil]
    simp only [sampleStep]
    rw [Function.update_noteq (Ne.symm (h a (by simp)))]
    exact ih (fun idx hidx => h idx (List.mem_append_left _ hidx))

theorem sampleSpectrum_outside_buffer (R : Random) (p : Params) (K : ℕ → ℝ) (s : R.State)
    (mem : Spectrum) (i : ℕ) (hi : p.samples * p.samples * n2 p.samples ≤ i) :
    (sampleSpectrum R p K s mem).2 i = mem i := by
  unfold sampleSpectrum
  apply foldl_sampleStep_untouched
  rintro ⟨ix, iy, iz⟩ hmem heq
  obtain ⟨hx, hy, hz⟩ := (mem_halfGrid _ _ _ _).1 hmem
  have := spectrumIndex_lt p.samples ix iy iz hx hy hz
  simp only at heq
  omega

/-! ## The real-space read-out -/

theorem lt_two_n2 (n : ℕ) : n < 2 * n2 n := by
  unfold n2; omega

theorem realIndexValue_inj (n ix iy iz jx jy jz : ℕ) (hy : iy < n) (hz : iz < n)
    (hy2 : jy < n) (hz2 : jz < n)
    (h : realIndexValue n ix iy iz = realIndexValue n jx jy jz) :
    ix = jx ∧ iy = jy ∧ iz = jz := by
  unfold realIndexValue at h
  have e1 : ix * n * 2 * n2 n + iy * 2 * n2 n + iz = (ix * n + iy) * (2 * n2 n) + iz := by ring
  have e2 : jx * n * 2 * n2 n + jy * 2 * n2 n + jz = (jx * n + jy) * (2 * n2 n) + jz := by ring
  rw [e1, e2] at h
  obtain ⟨h1, h2⟩ := flat_pair_inj (2 * n2 n) _ _ _ _ (lt_trans hz (lt_two_n2 n))
    (lt_trans hz2 (lt_two_n2 n)) h
  obtain ⟨h3, h4⟩ := flat_pair_inj n _ _ _ _ hy hy2 h1
  exact ⟨h3, h4, h2⟩

theorem realIndexValue_lt (n ix iy iz : ℕ) (hx : ix < n) (hy : iy < n) (hz : iz < n) :
    realIndexValue n ix iy iz < 2 * n * n * n2 n := by
  unfold realIndexValue
  have e1 : ix * n * 2 * n2 n + iy * 2 * n2 n + iz = (ix * n + iy) * (2 * n2 n) + iz := by ring
  have e2 : 2 * n * n * n2 n = (n * n) * (2 * n2 n) := by ring
  rw [e1, e2]
  have h1 : ix * n + iy + 1 ≤ n * n := by
    have : (ix + 1) * n ≤ n * n := Nat.mul_le_mul_right n hx
    rw [Nat.add_mul, Nat.one_mul] at this
    omega
  have h2 : (ix * n + iy + 1) * (2 * n2 n) ≤ (n * n) * (2 * n2 n) :=
    Nat.mul_le_mul_right _ h1
  have h3 := lt_two_n2 n
  rw [Nat.add_mul, Nat.one_mul] at h2
  omega

theorem toInt32_of_lt (v : ℕ) (h : v < 2147483648) : toInt32 v = (v : ℤ) := by
  unfold toInt32
  omega

/-- While the buffer has at most `2^31` doubles the variable `int i` holds the value of
the `size_t` expression: the index is one-to-one on the cells and inside the buffer. -/
theorem realIndex_of_small (n : ℕ) (hn : 2 * n * n * n2 n ≤ 2147483648) :
    (∀ ix iy iz, ix < n → iy < n → iz < n →
        realIndex n ix iy iz = (realIndexValue n ix iy iz : ℤ))
      ∧ (∀ ix iy iz jx jy jz, ix < n → iy < n → iz < n → jx < n → jy < n → jz < n →
          realIndex n ix iy iz = realIndex n jx jy jz → ix = jx ∧ iy = jy ∧ iz = jz)
      ∧ (∀ ix iy iz, ix < n → iy < n → iz < n →
          0 ≤ realIndex n ix iy iz ∧ realIndex n ix iy iz < ((2 * n * n * n2 n : ℕ) : ℤ)) := by
  have hval : ∀ ix iy iz, ix < n → iy < n → iz < n →
      realIndex n ix iy iz = (realIndexValue n ix iy iz : ℤ) := by
    intro ix iy iz hx hy hz
    unfold realIndex
    exact toInt32_of_lt _ (lt_of_lt_of_le (realIndexValue_lt n ix iy iz hx hy hz) hn)
  refine ⟨hval, ?_, ?_⟩
  · intro ix iy iz jx jy jz hx hy hz hx2 hy2 hz2 h
    rw [hval ix iy iz hx hy hz, hval jx jy jz hx2 hy2 hz2] at h
    exact realIndexValue_inj n ix iy iz jx jy jz hy hz hy2 hz2 (by exact_mod_cast h)
  · intro ix iy iz hx hy hz
    rw [hval ix iy iz hx hy hz]
    have := realIndexValue_lt n ix iy iz hx hy hz
    exact ⟨Int.natCast_nonneg _, by exact_mod_cast this⟩

/-! ## Draws -/

theorem visit_counted (R : Random) (p : Params) (ek : Vector3) (s : (counted R).State) :
    (visit (counted R) p ek s).2.2
      = s.2 + (if outsideRange p (Vector3.mag ek) then 0 else 3) := by
  by_cases h : outsideRange p (Vector3.mag ek)
  · rw [visit_outside _ _ _ _ h, if_pos h]
    rfl
  · rw [visit_inside _ _ _ _ h, if_neg h]
    rfl

theorem foldl_sampleStep_counted (R : Random) (p : Params) (K : ℕ → ℝ)
    (L : List (ℕ × ℕ × ℕ)) (st : (counted R).State × Spectrum) :
    (L.foldl (sampleStep (counted R) p K) st).1.2
      = st.1.2 + 3 * L.countP (insideRange p K) := by
  induction L using List.reverseRecOn with
  | nil => simp
  | append_singleton L a ih =>
    rw [List.foldl_append, List.foldl_cons, List.foldl_nil, List.countP_append]
    simp only [sampleStep]
    rw [visit_counted, ih]
    by_cases h : outsideRange p (Vector3.mag (waveVector K a))
    · have hb : insideRange p K a = false := by simp [insideRange, h]
      rw [if_pos h]
      simp [List.countP_cons, hb]
    · have hb : insideRange p K a = true := by simp [insideRange, h]
      rw [if_neg h]
      simp [List.countP_cons, hb]
      ring

/-! ## Amplitude -/

theorem orientation_mag2 (ek : Vector3) (u1 : ℝ)
    (h1 : Vector3.mag (orthogonalBase ek).1 = 1) (h2 : Vector3.mag (orthogonalBase ek).2 = 1)
    (h3 : Vector3.dot (orthogonalBase ek).1 (orthogonalBase ek).2 = 0) :
    Vector3.mag2 (orientation ek u1) = 1 := by
  have e1 : Vector3.mag2 (orthogonalBase ek).1 = 1 := by
    rw [← Vector3.mag_mul_self, h1]; norm_num
  have e2 : Vector3.mag2 (orthogonalBase ek).2 = 1 := by
    rw [← Vector3.mag_mul_self, h2]; norm_num
  simp only [Vector3.mag2, Vector3.dot] at e1 e2 h3
  simp only [orientation, Vector3.mag2, Vector3.add, Vector3.scale]
  have hcs := Real.cos_sq_add_sin_sq (2 * Real.pi * u1)
  linear_combination
    (Real.cos (2 * Real.pi * u1)) ^ 2 * e1 + (Real.sin (2 * Real.pi * u1)) ^ 2 * e2
      + (2 * Real.cos (2 * Real.pi * u1) * Real.sin (2 * Real.pi * u1)) * h3 + hcs

theorem emitted_sum_sq (p : Params) (ek : Vector3) (u1 g u2 : ℝ)
    (h1 : Vector3.mag (orthogonalBase ek).1 = 1) (h2 : Vector3.mag (orthogonalBase ek).2 = 1)
    (h3 : Vector3.dot (orthogonalBase ek).1 (orthogonalBase ek).2 = 0) :
    Vector3.mag (orientation ek u1) = 1
      ∧ ((emitted p ek u1 g u2).Bkx.1 ^ 2 + (emitted p ek u1 g u2).Bkx.2 ^ 2)
          + ((emitted p ek u1 g u2).Bky.1 ^ 2 + (emitted p ek u1 g u2).Bky.2 ^ 2)
          + ((emitted p ek u1 g u2).Bkz.1 ^ 2 + (emitted p ek u1 g u2).Bkz.2 ^ 2)
        = g ^ 2 * Vector3.mag ek ^ p.powerSpectralIndex
      ∧ Real.sqrt (((emitted p ek u1 g u2).Bkx.1 ^ 2 + (emitted p ek u1 g u2).Bkx.2 ^ 2)
          + ((emitted p ek u1 g u2).Bky.1 ^ 2 + (emitted p ek u1 g u2).Bky.2 ^ 2)
          + ((emitted p ek u1 g u2).Bkz.1 ^ 2 + (emitted p ek u1 g u2).Bkz.2 ^ 2))
        = |g| * Vector3.mag ek ^ (p.powerSpectralIndex / 2) := by
  have ho := orientation_mag2 ek u1 h1 h2 h3
  have hk : 0 ≤ Vector3.mag ek := Real.sqrt_nonneg _
  have hpow : (Vector3.mag ek ^ (p.powerSpectralIndex / 2)) ^ 2
      = Vector3.mag ek ^ p.powerSpectralIndex := by
    rw [← Real.rpow_natCast, ← Real.rpow_mul hk]
    congr 1
    push_cast
    ring
  have hsum : ((emitted p ek u1 g u2).Bkx.1 ^ 2 + (emitted p ek u1 g u2).Bkx.2 ^ 2)
          + ((emitted p ek u1 g u2).Bky.1 ^ 2 + (emitted p ek u1 g u2).Bky.2 ^ 2)
          + ((emitted p ek u1 g u2).Bkz.1 ^ 2 + (emitted p ek u1 g u2).Bkz.2 ^ 2)
        = (g * Vector3.mag ek ^ (p.powerSpectralIndex / 2)) ^ 2 := by
    have hcs := Real.cos_sq_add_sin_sq (2 * Real.pi * u2)
    simp only [Vector3.mag2] at ho
    simp only [emitted, amplitude, Vector3.scale]
    linear_combination
      ((g * Vector3.mag ek ^ (p.powerSpectralIndex / 2)) ^ 2
          * ((orientation ek u1).x * (orientation ek u1).x
            + (orientation ek u1).y * (orientation ek u1).y
            + (orientation ek u1).z * (orientation ek u1).z)) * hcs
        + ((g * Vector3.mag ek ^ (p.powerSpectralIndex / 2)) ^ 2) * ho
  refine ⟨?_, ?_, ?_⟩
  · unfold Vector3.mag; rw [ho, Real.sqrt_one]
  · rw [hsum, mul_pow, hpow]
  · rw [hsum, Real.sqrt_sq_eq_abs, abs_mul,
      abs_of_nonneg (Real.rpow_nonneg hk _)]

/-! ## Reproducibility -/

theorem foldl_sampleStep_mem_indep (R : Random) (p : Params) (K : ℕ → ℝ)
    (L : List (ℕ × ℕ × ℕ)) (s : R.State) (mem1 mem2 : Spectrum) :
    (L.foldl (sampleStep R p K) (s, mem1)).1 = (L.foldl (sampleStep R p K) (s, mem2)).1
      ∧ ∀ j, (∃ idx ∈ L, spectrumIndex p.samples idx.1 idx.2.1 idx.2.2 = j) →
          (L.foldl (sampleStep R p K) (s, mem1)).2 j
            = (L.foldl (sampleStep R p K) (s, mem2)).2 j := by
  induction L using List.reverseRecOn with
  | nil =>
    refine ⟨rfl, ?_⟩
    rintro j ⟨idx, hmem, _⟩
    simp at hmem
  | append_singleton L a ih =>
    obtain ⟨ih1, ih2⟩ := ih
    rw [List.foldl_append, List.foldl_cons, List.foldl_nil, List.foldl_append, List.foldl_cons,
      List.foldl_nil]
    simp only [sampleStep]
    rw [ih1]
    refine ⟨rfl, ?_⟩
    rintro j ⟨idx, hmem, hidx⟩
    by_cases ha : spectrumIndex p.samples a.1 a.2.1 a.2.2 = j
    · rw [ha, Function.update_same, Function.update_same]
    · rw [Function.update_noteq (Ne.symm ha), Function.update_noteq (Ne.symm ha)]
      apply ih2
      rcases List.mem_append.1 hmem with h1 | h1
      · exact ⟨idx, h1, hidx⟩
      · have : idx = a := by simpa using h1
        subst this
        exact absurd hidx ha

theorem sampleSpectrum_mem_indep (R : Random) (p : Params) (K : ℕ → ℝ) (s : R.State)
    (mem1 mem2 : Spectrum) (ix iy iz : ℕ) (hx : ix < p.samples) (hy : iy < p.samples)
    (hz : iz < n2 p.samples) :
    (sampleSpectrum R p K s mem1).2 (spectrumIndex p.samples ix iy iz)
      = (sampleSpectrum R p K s mem2).2 (spectrumIndex p.samples ix iy iz) :=
  (foldl_sampleStep_mem_indep R p K (halfGrid p.samples) s mem1 mem2).2 _
    ⟨(ix, iy, iz), (mem_halfGrid _ _ _ _).2 ⟨hx, hy, hz⟩, rfl⟩

theorem initializeGrid_mem_indep (R : Random) (c2r : Transform) (p : Params)
    (mem1 mem2 : Spectrum) (s : R.State)
    (hlocal : ∀ Bk Bk2 : ℕ → ℝ × ℝ,
      (∀ ix iy iz, ix < p.samples → iy < p.samples → iz < n2 p.samples →
        Bk (spectrumIndex p.samples ix iy iz) = Bk2 (spectrumIndex p.samples ix iy iz)) →
      c2r p.samples Bk = c2r p.samples Bk2) :
    initializeGrid R c2r p mem1 s = initializeGrid R c2r p mem2 s := by
  unfold initializeGrid
  cases hK : waveNumbers p.samples with
  | none => rfl
  | some K =>
    simp only
    have hb : realBuffers c2r p.samples (sampleSpectrum R p K s mem1).2
        = realBuffers c2r p.samples (sampleSpectrum R p K s mem2).2 := by
      unfold realBuffers
      have hx := hlocal (fun i => ((sampleSpectrum R p K s mem1).2 i).Bkx)
        (fun i => ((sampleSpectrum R p K s mem2).2 i).Bkx)
        (fun ix iy iz hx hy hz => by
          simp only [sampleSpectrum_mem_indep R p K s mem1 mem2 ix iy iz hx hy hz])
      have hy := hlocal (fun i => ((sampleSpectrum R p K s mem1).2 i).Bky)
        (fun i => ((sampleSpectrum R p K s mem2).2 i).Bky)
        (fun ix iy iz hx hy hz => by
          simp only [sampleSpectrum_mem_indep R p K s mem1 mem2 ix iy iz hx hy hz])
      have hz := hlocal (fun i => ((sampleSpectrum R p K s mem1).2 i).Bkz)
        (fun i => ((sampleSpectrum R p K s mem2).2 i).Bkz)
        (fun ix iy iz hx hy hz => by
          simp only [sampleSpectrum_mem_indep R p K s mem1 mem2 ix iy iz hx hy hz])
      rw [hx, hy, hz]
    rw [hb]

theorem inverseTransform_local (n : ℕ) (Bk Bk2 : ℕ → ℝ × ℝ)
    (h : ∀ ix iy iz, ix < n → iy < n → iz < n2 n →
      Bk (spectrumIndex n ix iy iz) = Bk2 (spectrumIndex n ix iy iz)) :
    inverseTransform n Bk = inverseTransform n Bk2 := by
  funext j
  unfold inverseTransform
  refine Finset.sum_congr rfl fun kx hkx => Finset.sum_congr rfl fun ky hky =>
    Finset.sum_congr rfl fun kz hkz => ?_
  rw [Finset.mem_range] at hkx hky hkz
  by_cases hz : kz < n2 n
  · rw [if_pos hz, if_pos hz, if_pos hz, if_pos hz, h kx ky kz hkx hky hz]
  · have hm := h ((n - kx) % n) ((n - ky) % n) (n - kz) (Nat.mod_lt _ (by omega))
      (Nat.mod_lt _ (by omega)) (by unfold n2 at *; omega)
    rw [if_neg hz, if_neg hz, if_neg hz, if_neg hz, hm]

/-! ## Bounds on the correlation length -/

/-- For `0 < r < 1` and `s > 0`: `r^s · (1 + s (1 - r)) < 1`. -/
theorem rpow_mul_affine_lt_one (r s : ℝ) (hr0 : 0 < r) (hr1 : r < 1) (hs : 0 < s) :
    r ^ s * (1 + s * (1 - r)) < 1 := by
  have h1 : r < Real.exp (r - 1) := by
    have := Real.add_one_lt_exp (x := r - 1) (by linarith)
    linarith
  have h2 : r ^ s < Real.exp ((r - 1) * s) := by
    rw [Real.exp_mul]
    exact Real.rpow_lt_rpow (le_of_lt hr0) h1 hs
  have h3 : 1 + s * (1 - r) ≤ Real.exp (s * (1 - r)) := by
    have := Real.add_one_le_exp (s * (1 - r))
    linarith
  have h4 : 0 < 1 + s * (1 - r) := by nlinarith
  have h5 : r ^ s * (1 + s * (1 - r)) < Real.exp ((r - 1) * s) * Real.exp (s * (1 - r)) :=
    mul_lt_mul h2 h3 h4 (le_of_lt (Real.exp_pos _))
  rw [← Real.exp_add] at h5
  have h6 : (r - 1) * s + s * (1 - r) = 0 := by ring
  rw [h6, Real.exp_zero] at h5
  exact h5

theorem correlationLength_bounds_aux (L r a : ℝ) (hL : 0 < L) (hr0 : 0 < r) (hr1 : r < 1)
    (ha : 1 < a) :
    a ≠ 0 ∧ 1 - r ^ (a - 1) ≠ 0
      ∧ L / 2 * (a - 1) / a < L / 2 * (a - 1) / a * (1 - r ^ a) / (1 - r ^ (a - 1))
      ∧ L / 2 * (a - 1) / a * (1 - r ^ a) / (1 - r ^ (a - 1)) < L / 2 := by
  have ha0 : 0 < a := by linarith
  have hs : 0 < a - 1 := by linarith
  have hu0 : 0 < r ^ (a - 1) := Real.rpow_pos_of_pos hr0 _
  have hu1 : r ^ (a - 1) < 1 := Real.rpow_lt_one (le_of_lt hr0) hr1 hs
  have hD : 0 < 1 - r ^ (a - 1) := by linarith
  have hra : r ^ a = r ^ (a - 1) * r := by
    have := Real.rpow_add_one (ne_of_gt hr0) (a - 1)
    rw [sub_add_cancel] at this
    exact this
  have hkey := rpow_mul_affine_lt_one r (a - 1) hr0 hr1 hs
  have hc : 0 < L / 2 * (a - 1) / a := by positivity
  refine ⟨ne_of_gt ha0, ne_of_gt hD, ?_, ?_⟩
  · have hq : 1 < (1 - r ^ a) / (1 - r ^ (a - 1)) := by
      rw [lt_div_iff₀ hD, hra]
      nlinarith
    have e : L / 2 * (a - 1) / a * (1 - r ^ a) / (1 - r ^ (a - 1))
        = L / 2 * (a - 1) / a * ((1 - r ^ a) / (1 - r ^ (a - 1))) := by ring
    rw [e]
    exact lt_mul_of_one_lt_right hc hq
  · rw [div_lt_iff₀ hD, hra]
    have e : L / 2 * (a - 1) / a * (1 - r ^ (a - 1) * r)
        = L / 2 * ((a - 1) * (1 - r ^ (a - 1) * r) / a) := by ring
    rw [e]
    have h1 : (a - 1) * (1 - r ^ (a - 1) * r) / a < 1 - r ^ (a - 1) := by
      rw [div_lt_iff₀ ha0]
      nlinarith
    have hL2 : 0 < L / 2 := by positivity
    nlinarith

/-! ## The correlation length in double arithmetic -/

theorem roundHalfEven_add (m : ℤ) (t : ℝ) (h0 : 0 ≤ t) (h1 : t < 1 / 2) :
    roundHalfEven ((m : ℝ) + t) = m := by
  have hfl : ⌊(m : ℝ) + t⌋ = m := by
    rw [Int.floor_eq_iff]
    constructor <;> linarith
  have hfr : Int.fract ((m : ℝ) + t) = t := by
    rw [Int.fract, hfl]; ring
  unfold roundHalfEven
  rw [hfr, if_pos h1, hfl]

theorem log_two_eq (x : ℝ) (k : ℤ) (hlo : (2 : ℝ) ^ k ≤ x) (hhi : x < (2 : ℝ) ^ (k + 1)) :
    Int.log 2 x = k := by
  have hx : 0 < x := lt_of_lt_of_le (by positivity) hlo
  have h1 : k ≤ Int.log 2 x := by
    rw [← Int.zpow_le_iff_le_log (by norm_num) hx]
    simpa using hlo
  have h2 : Int.log 2 x < k + 1 := by
    rw [← Int.lt_zpow_iff_log_lt (by norm_num) hx]
    simpa using hhi
  omega

/-- A value `(m + t) · 2^e` with a 53-bit integer `m` and `0 ≤ t < 1/2` is rounded to
`m · 2^e`. -/
theorem roundDouble_eq (m e : ℤ) (t : ℝ) (h0 : 0 ≤ t) (h1 : t < 1 / 2)
    (hlo : (2 : ℝ) ^ (52 : ℤ) ≤ (m : ℝ)) (hhi : (m : ℝ) + t < (2 : ℝ) ^ (53 : ℤ)) :
    roundDouble (((m : ℝ) + t) * (2 : ℝ) ^ e) = (m : ℝ) * (2 : ℝ) ^ e := by
  have he : (0 : ℝ) < (2 : ℝ) ^ e := by positivity
  have hmt : (0 : ℝ) < (m : ℝ) + t := by
    have : (0 : ℝ) < (2 : ℝ) ^ (52 : ℤ) := by positivity
    linarith
  have hx : 0 < ((m : ℝ) + t) * (2 : ℝ) ^ e := mul_pos hmt he
  have hlog : Int.log 2 |((m : ℝ) + t) * (2 : ℝ) ^ e| = e + 52 := by
    rw [abs_of_pos hx]
    apply log_two_eq
    · rw [add_comm, zpow_add₀ (by norm_num : (2 : ℝ) ≠ 0)]
      exact mul_le_mul_of_nonneg_right (by linarith) (le_of_lt he)
    · have : e + 52 + 1 = 53 + e := by ring
      rw [this, zpow_add₀ (by norm_num : (2 : ℝ) ≠ 0)]
      exact mul_lt_mul_of_pos_right hhi he
  unfold roundDouble
  rw [hlog]
  have hexp : e + 52 - 52 = e := by ring
  rw [hexp, mul_div_assoc, div_self (ne_of_gt he), mul_one, roundHalfEven_add m t h0 h1]

theorem roundDouble_exact (m e : ℤ) (hlo : (2 : ℝ) ^ (52 : ℤ) ≤ (m : ℝ))
    (hhi : (m : ℝ) < (2 : ℝ) ^ (53 : ℤ)) :
    roundDouble ((m : ℝ) * (2 : ℝ) ^ e) = (m : ℝ) * (2 : ℝ) ^ e := by
  have := roundDouble_eq m e 0 le_rfl (by norm_num) hlo (by simpa using hhi)
  simpa using this

theorem roundDouble_one : roundDouble 1 = 1 := by
  have h := roundDouble_exact (2 ^ 52) (-52) (by norm_num) (by norm_num)
  norm_num at h
  exact h

theorem roundDouble_two : roundDouble 2 = 2 := by
  have h := roundDouble_exact (2 ^ 52) (-51) (by norm_num) (by norm_num)
  norm_num at h
  exact h

theorem roundDouble_below_one : roundDouble (1 - 1 / 2 ^ 53) = 1 - 1 / 2 ^ 53 := by
  have h := roundDouble_exact (2 ^ 53 - 1) (-53) (by norm_num) (by norm_num)
  have e : (((2 ^ 53 - 1 : ℤ) : ℝ)) * (2 : ℝ) ^ (-53 : ℤ) = 1 - 1 / 2 ^ 53 := by
    norm_num
  rw [e] at h
  exact h

theorem roundDouble_ulp : roundDouble (1 / 2 ^ 53) = 1 / 2 ^ 53 := by
  have h := roundDouble_exact (2 ^ 52) (-105) (by norm_num) (by norm_num)
  have e : (((2 ^ 52 : ℤ) : ℝ)) * (2 : ℝ) ^ (-105 : ℤ) = 1 / 2 ^ 53 := by
    norm_num
  rw [e] at h
  exact h

theorem roundDouble_two_ulp : roundDouble (2 / 2 ^ 53) = 2 / 2 ^ 53 := by
  have h := roundDouble_exact (2 ^ 52) (-104) (by norm_num) (by norm_num)
  have e : (((2 ^ 52 : ℤ) : ℝ)) * (2 : ℝ) ^ (-104 : ℤ) = 2 / 2 ^ 53 := by
    norm_num
  rw [e] at h
  exact h

theorem roundDouble_square : roundDouble ((1 - 1 / 2 ^ 53) ^ 2) = 1 - 2 / 2 ^ 53 := by
  have h := roundDouble_eq (2 ^ 53 - 2) (-53) (1 / 2 ^ 53) (by positivity) (by norm_num)
    (by norm_num) (by norm_num)
  have e1 : ((((2 ^ 53 - 2 : ℤ) : ℝ)) + 1 / 2 ^ 53) * (2 : ℝ) ^ (-53 : ℤ)
      = (1 - 1 / 2 ^ 53) ^ 2 := by
    norm_num
  have e2 : (((2 ^ 53 - 2 : ℤ) : ℝ)) * (2 : ℝ) ^ (-53 : ℤ) = 1 - 2 / 2 ^ 53 := by
    norm_num
  rw [e1, e2] at h
  exact h

/-- The evaluation of `getCorrelationLength` in double arithmetic at `lMax = 4`,
`lMin = 4 - 2^-51`, spectral index `-4`, for a `pow` with `pow(r, 1) = r`: it returns `2` when
`pow(r, 2)` is the double below the exact square and `1` when it is the double above. -/
theorem getCorrelationLengthDouble_nearlyEqual (pw : ℝ → ℝ → ℝ)
    (hone : pw (1 - 1 / 2 ^ 53) 1 = 1 - 1 / 2 ^ 53) :
    (pw (1 - 1 / 2 ^ 53) 2 = 1 - 2 / 2 ^ 53 →
        getCorrelationLengthDouble pw nearlyEqualScales = some 2)
      ∧ (pw (1 - 1 / 2 ^ 53) 2 = 1 - 1 / 2 ^ 53 →
        getCorrelationLengthDouble pw nearlyEqualScales = some 1) := by
  have hr : fdiv nearlyEqualScales.lMin nearlyEqualScales.lMax = some (1 - 1 / 2 ^ 53) := by
    have e : nearlyEqualScales.lMin / nearlyEqualScales.lMax = 1 - 1 / 2 ^ 53 := by
      norm_num [nearlyEqualScales]
    unfold fdiv
    rw [if_neg (by norm_num [nearlyEqualScales]), e, roundDouble_below_one]
  have ha : fsub (-nearlyEqualScales.powerSpectralIndex) 2 = 2 := by
    have e : -nearlyEqualScales.powerSpectralIndex - 2 = 2 := by norm_num [nearlyEqualScales]
    unfold fsub
    rw [e, roundDouble_two]
  have ha1 : fsub 2 1 = 1 := by
    have e : (2 : ℝ) - 1 = 1 := by norm_num
    unfold fsub
    rw [e, roundDouble_one]
  have hh : fdiv nearlyEqualScales.lMax 2 = some 2 := by
    have e : nearlyEqualScales.lMax / 2 = 2 := by norm_num [nearlyEqualScales]
    unfold fdiv
    rw [if_neg (by norm_num), e, roundDouble_two]
  have hm : fmul 2 1 = 2 := by
    unfold fmul
    rw [mul_one, roundDouble_two]
  have hc : fdiv 2 2 = some 1 := by
    unfold fdiv
    rw [if_neg (by norm_num), div_self (by norm_num), roundDouble_one]
  have hden : fsub 1 (1 - 1 / 2 ^ 53) = 1 / 2 ^ 53 := by
    have e : (1 : ℝ) - (1 - 1 / 2 ^ 53) = 1 / 2 ^ 53 := by ring
    unfold fsub
    rw [e, roundDouble_ulp]
  have hnum : fsub 1 (1 - 2 / 2 ^ 53) = 2 / 2 ^ 53 := by
    have e : (1 : ℝ) - (1 - 2 / 2 ^ 53) = 2 / 2 ^ 53 := by ring
    unfold fsub
    rw [e, roundDouble_two_ulp]
  have hu : (1 : ℝ) / 2 ^ 53 ≠ 0 := by positivity
  constructor
  · intro htwo
    unfold getCorrelationLengthDouble
    rw [hr, hh, ha, ha1]
    simp only [Option.some_bind]
    rw [hm, hc]
    simp only [Option.some_bind]
    rw [htwo, hone, hnum, hden]
    unfold fmul fdiv
    rw [one_mul, roundDouble_two_ulp, if_neg hu]
    have e : (2 : ℝ) / 2 ^ 53 / (1 / 2 ^ 53) = 2 := by field_simp
    rw [e, roundDouble_two]
  · intro htwo
    unfold getCorrelationLengthDouble
    rw [hr, hh, ha, ha1]
    simp only [Option.some_bind]
    rw [hm, hc]
    simp only [Option.some_bind]
    rw [htwo, hone, hden]
    unfold fmul fdiv
    rw [one_mul, roundDouble_ulp, if_neg hu, div_self hu, roundDouble_one]

theorem powNearest_one : powNearest (1 - 1 / 2 ^ 53) 1 = 1 - 1 / 2 ^ 53 := by
  unfold powNearest
  rw [Real.rpow_one, roundDouble_below_one]

theorem powNearest_two : powNearest (1 - 1 / 2 ^ 53) 2 = 1 - 2 / 2 ^ 53 := by
  unfold powNearest
  rw [Real.rpow_two, roundDouble_square]


/-- C20 (counterexample): with `lMax = 4`, `lMin = 4 - 2^-51` (the double next below `4`) and
spectral index `-4`, so that `0 < lMin < lMax` and `a = 2 > 1`, the method evaluated in double
arithmetic with a correctly rounded `pow` returns exactly `2 = lMax/2`, which is not below
`lMax/2`. -/
theorem correlationLength_double_reaches_bound :
    0 < nearlyEqualScales.lMin ∧ nearlyEqualScales.lMin < nearlyEqualScales.lMax
      ∧ 1 < -nearlyEqualScales.powerSpectralIndex - 2
      ∧ getCorrelationLengthDouble powNearest nearlyEqualScales = some 2
      ∧ nearlyEqualScales.lMax / 2 = 2
      ∧ ¬ ((2 : ℝ) < nearlyEqualScales.lMax / 2) := by
  refine ⟨by norm_num [nearlyEqualScales], by norm_num [nearlyEqualScales],
    by norm_num [nearlyEqualScales],
    (getCorrelationLengthDouble_nearlyEqual powNearest powNearest_one).1 powNearest_two,
    by norm_num [nearlyEqualScales], by norm_num [nearlyEqualScales]⟩

/-! ## Claims on the indices, the draws, the amplitude and the seed -/

/-- C18: for every `n`, with `n2 = floor(n/2) + 1`, the flat index
`i = ix*n*n2 + iy*n2 + iz` maps the triples with `ix, iy < n`, `iz < n2` one-to-one onto
`0, ..., n*n*n2 - 1`; the loop visits the flat indices in the order `0, 1, ..., n*n*n2 - 1`,
each exactly once, and leaves every position from `n*n*n2` on as it was. -/
theorem spectrum_buffer_coverage (n : ℕ) :
    (∀ ix iy iz, ix < n → iy < n → iz < n2 n → spectrumIndex n ix iy iz < n * n * n2 n)
      ∧ (∀ ix iy iz jx jy jz, ix < n → iy < n → iz < n2 n → jx < n → jy < n → jz < n2 n →
          spectrumIndex n ix iy iz = spectrumIndex n jx jy jz → ix = jx ∧ iy = jy ∧ iz = jz)
      ∧ (∀ i, i < n * n * n2 n →
          ∃ ix iy iz, ix < n ∧ iy < n ∧ iz < n2 n ∧ spectrumIndex n ix iy iz = i)
      ∧ (halfGrid n).map (fun idx => spectrumIndex n idx.1 idx.2.1 idx.2.2)
          = List.range (n * n * n2 n)
      ∧ (∀ (R : Random) (p : Params) (K : ℕ → ℝ) (s : R.State) (mem : Spectrum) (i : ℕ),
          p.samples = n → n * n * n2 n ≤ i → (sampleSpectrum R p K s mem).2 i = mem i) := by
  refine ⟨spectrumIndex_lt n, ?_, spectrumIndex_surj n, map_spectrumIndex_halfGrid n, ?_⟩
  · intro ix iy iz jx jy jz _ hy hz _ hy2 hz2 h
    exact spectrumIndex_inj n ix iy iz jx jy jz hy hz hy2 hz2 h
  · intro R p K s mem i hn hi
    subst hn
    exact sampleSpectrum_outside_buffer R p K s mem i hi

/-- C19 (failing input): with 1290 samples the `size_t` value of the flat index of the cell
`(1289, 1289, 1289)` is `2150017197`, above the largest `int`; the variable `int i` holds
`-2144950099`, a position before the start of the buffer of `2*n*n*n2 = 2150017200`
doubles, and the cell saved is read there. -/
theorem realIndex_overflow :
    realIndexValue 1290 1289 1289 1289 = 2150017197
      ∧ 2 * 1290 * 1290 * n2 1290 = 2150017200
      ∧ realIndex 1290 1289 1289 1289 = -2144950099
      ∧ ¬ (0 ≤ realIndex 1290 1289 1289 1289)
      ∧ (∀ (Brms : ℝ) (Bx By Bz : ℤ → ℝ),
          gridCell 1290 Brms Bx By Bz 1289 1289 1289
            = Vector3.scale ⟨Bx (-2144950099), By (-2144950099), Bz (-2144950099)⟩
                (weight 1290 Brms Bx By Bz)) := by
  have h1 : realIndexValue 1290 1289 1289 1289 = 2150017197 := by
    norm_num [realIndexValue, n2]
  have h2 : realIndex 1290 1289 1289 1289 = -2144950099 := by
    unfold realIndex
    rw [h1]
    norm_num [toInt32]
  refine ⟨h1, by norm_num [n2], h2, ?_, ?_⟩
  · rw [h2]
    norm_num
  · intro Brms Bx By Bz
    unfold gridCell
    rw [h2]

theorem zero_wave_two_outside :
    outsideRange smallParams (Vector3.mag (waveVector (waveNumber 2) (0, 0, 0))) := by
  have hmag : Vector3.mag (waveVector (waveNumber 2) (0, 0, 0)) = 0 := by
    simp [Vector3.mag, Vector3.mag2, waveVector, waveNumber_zero]
  rw [hmag]
  left
  norm_num [kMin, smallParams]

/-- C16 (counterexample): on the grid with 2 samples and the range `[1/4, 1]`, the visit of
the wavevector at `(0,0,0)` makes no draw and the visit of the wavevector at `(1,0,0)` makes
three. -/
theorem draws_differ_between_visits :
    (visit (counted constantSource) smallParams (waveVector (waveNumber 2) (0, 0, 0))
        ((), 0)).2.2 = 0
      ∧ (visit (counted constantSource) smallParams (waveVector (waveNumber 2) (1, 0, 0))
        ((), 0)).2.2 = 3 := by
  constructor
  · rw [visit_counted, if_pos zero_wave_two_outside]
  · rw [visit_counted, if_neg (by rw [waveVector_two_100]; exact inside_wave_100)]

/-- C16 (amended): the half-grid is visited in row-major order (the flat index runs through
`0, 1, ..., n*n*n2 - 1`); a visit of a wavevector inside the range makes exactly three draws
and a visit of a wavevector outside the range makes none, so after the first `m` visits
`3 ·` (number of wavevectors inside the range among them) draws have been made. -/
theorem draws_consumed (R : Random) (p : Params) (K : ℕ → ℝ) (s : (counted R).State)
    (mem : Spectrum) (m : ℕ) :
    (halfGrid p.samples).map (fun idx => spectrumIndex p.samples idx.1 idx.2.1 idx.2.2)
        = List.range (p.samples * p.samples * n2 p.samples)
      ∧ (∀ (ek : Vector3) (s1 : (counted R).State),
          (visit (counted R) p ek s1).2.2
            = s1.2 + (if outsideRange p (Vector3.mag ek) then 0 else 3))
      ∧ (((halfGrid p.samples).take m).foldl (sampleStep (counted R) p K) (s, mem)).1.2
          = s.2 + 3 * ((halfGrid p.samples).take m).countP (insideRange p K) :=
  ⟨map_spectrumIndex_halfGrid p.samples, fun ek s1 => visit_counted R p ek s1,
    foldl_sampleStep_counted R p K _ (s, mem)⟩

theorem orthogonalBase_orthonormal (ek : Vector3) (hk : ek ≠ ⟨0, 0, 0⟩) :
    Vector3.mag (orthogonalBase ek).1 = 1 ∧ Vector3.mag (orthogonalBase ek).2 = 1
      ∧ Vector3.dot (orthogonalBase ek).1 (orthogonalBase ek).2 = 0 := by
  obtain ⟨h1, h2, h3, _⟩ := rawBase_facts ek hk
  refine ⟨Vector3.mag_divide_self _ h1, Vector3.mag_divide_self _ h2, ?_⟩
  rw [orthogonalBase_dot, h3]; simp

/-- C17: for a wavevector inside the range whose base `e1`, `e2` is orthonormal, and for
every angle draw, normal draw `g` and phase draw, the vector `e1·cos(theta) + e2·sin(theta)`
has unit norm, the six emitted numbers satisfy `Σ (re² + im²) = g² · |k|^spectralIndex`, and
the square root of that sum is `|g| · |k|^(spectralIndex/2)`. -/
theorem power_law_amplitude (p : Params) (ek : Vector3) (u1 g u2 : ℝ)
    (hband : ¬ outsideRange p (Vector3.mag ek))
    (h1 : Vector3.mag (orthogonalBase ek).1 = 1) (h2 : Vector3.mag (orthogonalBase ek).2 = 1)
    (h3 : Vector3.dot (orthogonalBase ek).1 (orthogonalBase ek).2 = 0) :
    Vector3.mag (orientation ek u1) = 1
      ∧ ((emitted p ek u1 g u2).Bkx.1 ^ 2 + (emitted p ek u1 g u2).Bkx.2 ^ 2)
          + ((emitted p ek u1 g u2).Bky.1 ^ 2 + (emitted p ek u1 g u2).Bky.2 ^ 2)
          + ((emitted p ek u1 g u2).Bkz.1 ^ 2 + (emitted p ek u1 g u2).Bkz.2 ^ 2)
        = g ^ 2 * Vector3.mag ek ^ p.powerSpectralIndex
      ∧ Real.sqrt (((emitted p ek u1 g u2).Bkx.1 ^ 2 + (emitted p ek u1 g u2).Bkx.2 ^ 2)
          + ((emitted p ek u1 g u2).Bky.1 ^ 2 + (emitted p ek u1 g u2).Bky.2 ^ 2)
          + ((emitted p ek u1 g u2).Bkz.1 ^ 2 + (emitted p ek u1 g u2).Bkz.2 ^ 2))
        = |g| * Vector3.mag ek ^ (p.powerSpectralIndex / 2) := by
  have _hb := hband
  exact emitted_sum_sq p ek u1 g u2 h1 h2 h3

theorem wave_100_ne_zero : (⟨-(1 / 2), 0, 0⟩ : Vector3) ≠ ⟨0, 0, 0⟩ := by
  intro h
  have := congrArg Vector3.x h
  norm_num at this

/-- C17 (witness): the wavevector `(-1/2, 0, 0)` of the grid with 2 samples, with the draws
`1/4`, `1` and `1/4`. -/
theorem power_law_amplitude_witness :
    Vector3.mag (orientation ⟨-(1 / 2), 0, 0⟩ (1 / 4)) = 1
      ∧ ((emitted smallParams ⟨-(1 / 2), 0, 0⟩ (1 / 4) 1 (1 / 4)).Bkx.1 ^ 2
            + (emitted smallParams ⟨-(1 / 2), 0, 0⟩ (1 / 4) 1 (1 / 4)).Bkx.2 ^ 2)
          + ((emitted smallParams ⟨-(1 / 2), 0, 0⟩ (1 / 4) 1 (1 / 4)).Bky.1 ^ 2
            + (emitted smallParams ⟨-(1 / 2), 0, 0⟩ (1 / 4) 1 (1 / 4)).Bky.2 ^ 2)
          + ((emitted smallParams ⟨-(1 / 2), 0, 0⟩ (1 / 4) 1 (1 / 4)).Bkz.1 ^ 2
            + (emitted smallParams ⟨-(1 / 2), 0, 0⟩ (1 / 4) 1 (1 / 4)).Bkz.2 ^ 2)
        = 1 ^ 2 * Vector3.mag ⟨-(1 / 2), 0, 0⟩ ^ smallParams.powerSpectralIndex
      ∧ Real.sqrt
          (((emitted smallParams ⟨-(1 / 2), 0, 0⟩ (1 / 4) 1 (1 / 4)).Bkx.1 ^ 2
            + (emitted smallParams ⟨-(1 / 2), 0, 0⟩ (1 / 4) 1 (1 / 4)).Bkx.2 ^ 2)
          + ((emitted smallParams ⟨-(1 / 2), 0, 0⟩ (1 / 4) 1 (1 / 4)).Bky.1 ^ 2
            + (emitted smallParams ⟨-(1 / 2), 0, 0⟩ (1 / 4) 1 (1 / 4)).Bky.2 ^ 2)
          + ((emitted smallParams ⟨-(1 / 2), 0, 0⟩ (1 / 4) 1 (1 / 4)).Bkz.1 ^ 2
            + (emitted smallParams ⟨-(1 / 2), 0, 0⟩ (1 / 4) 1 (1 / 4)).Bkz.2 ^ 2))
        = |(1 : ℝ)| * Vector3.mag ⟨-(1 / 2), 0, 0⟩ ^ (smallParams.powerSpectralIndex / 2) :=
  power_law_amplitude smallParams ⟨-(1 / 2), 0, 0⟩ (1 / 4) 1 (1 / 4) inside_wave_100
    (orthogonalBase_orthonormal _ wave_100_ne_zero).1
    (orthogonalBase_orthonormal _ wave_100_ne_zero).2.1
    (orthogonalBase_orthonormal _ wave_100_ne_zero).2.2

/-- C11: with a transform that reads only the `n × n × n2` complex numbers of its input
buffer, the outcome of `setSeed(seed)` is the same whatever the freshly allocated buffers
hold: it is determined by the parameters and the seed.  The state of the random source
before the call is replaced by `random.seed(seed)`, and every cell is written without being
read. -/
theorem setSeed_reproducible (R : Random) (c2r : Transform) (p : Params)
    (mem1 mem2 : Spectrum) (seed : ℤ)
    (hlocal : ∀ Bk Bk2 : ℕ → ℝ × ℝ,
      (∀ ix iy iz, ix < p.samples → iy < p.samples → iz < n2 p.samples →
        Bk (spectrumIndex p.samples ix iy iz) = Bk2 (spectrumIndex p.samples ix iy iz)) →
      c2r p.samples Bk = c2r p.samples Bk2) :
    setSeed R c2r p mem1 seed = setSeed R c2r p mem2 seed :=
  initializeGrid_mem_indep R c2r p mem1 mem2 (R.seed seed) hlocal

/-- C11 (witness): the grid with 2 samples and the modelled inverse transform, seeded with
`42` once over zeroed buffers and once over buffers with other content. -/
theorem setSeed_reproducible_witness :
    setSeed constantSource inverseTransform smallParams zeroSpectrum 42
      = setSeed constantSource inverseTransform smallParams garbageSpectrum 42 :=
  setSeed_reproducible constantSource inverseTransform smallParams zeroSpectrum
    garbageSpectrum 42 (inverseTransform_local smallParams.samples)

/-- C20 (amended): for `0 < lMin < lMax` and `a = -spectralIndex - 2 > 1`, in exact real
arithmetic neither denominator of the closed form of `getCorrelationLength` is zero, and the
closed form lies strictly between `lMax/2 · (a-1)/a` and `lMax/2`. -/
theorem correlationLength_bounds (p : Params) (h0 : 0 < p.lMin) (h1 : p.lMin < p.lMax)
    (ha : 1 < -p.powerSpectralIndex - 2) :
    -p.powerSpectralIndex - 2 ≠ 0
      ∧ 1 - (p.lMin / p.lMax) ^ (-p.powerSpectralIndex - 2 - 1) ≠ 0
      ∧ p.lMax / 2 * (-p.powerSpectralIndex - 2 - 1) / (-p.powerSpectralIndex - 2)
          < getCorrelationLength p
      ∧ getCorrelationLength p < p.lMax / 2 := by
  have hL : 0 < p.lMax := lt_trans h0 h1
  exact correlationLength_bounds_aux p.lMax (p.lMin / p.lMax) (-p.powerSpectralIndex - 2) hL
    (div_pos h0 hL) ((div_lt_one hL).2 h1) ha

/-- C20 (witness): the Kolmogorov index `-11/3` with `lMin = 2` and `lMax = 4`. -/
theorem correlationLength_bounds_witness :
    -kolmogorovParams.powerSpectralIndex - 2 ≠ 0
      ∧ 1 - (kolmogorovParams.lMin / kolmogorovParams.lMax)
            ^ (-kolmogorovParams.powerSpectralIndex - 2 - 1) ≠ 0
      ∧ kolmogorovParams.lMax / 2 * (-kolmogorovParams.powerSpectralIndex - 2 - 1)
            / (-kolmogorovParams.powerSpectralIndex - 2)
          < getCorrelationLength kolmogorovParams
      ∧ getCorrelationLength kolmogorovParams < kolmogorovParams.lMax / 2 :=
  correlationLength_bounds kolmogorovParams (by norm_num [kolmogorovParams])
    (by norm_num [kolmogorovParams]) (by norm_num [kolmogorovParams])

end mpc

/-! ## The helper functions of `Common.h` -/

namespace crpropa

theorem pow_integer_eq_pow {T : Type} [Monoid T] (e : ℕ) (b : T) : pow_integer e b = b ^ e := by
  induction e using Nat.strong_induction_on generalizing b with
  | _ e ih =>
    rw [pow_integer]
    split
    · next h => rw [h, pow_zero]
    · next h =>
      have hlt : e >>> 1 < e := by
        rw [Nat.shiftRight_eq_div_pow]
        exact Nat.div_lt_self (Nat.pos_of_ne_zero h) (by norm_num)
      rw [ih _ hlt, Nat.shiftRight_eq_div_pow, pow_one, Nat.and_one_is_mod, ← pow_two, ← pow_mul]
      have hdm : e = 2 * (e / 2) + e % 2 := (Nat.div_add_mod e 2).symm
      rcases Nat.mod_two_eq_zero_or_one e with h0 | h1
      · rw [h0] at hdm ⊢
        simp only [gt_iff_lt, lt_self_iff_false, if_false, mul_one]
        rw [Nat.add_zero] at hdm
        rw [← hdm]
      · rw [h1] at hdm ⊢
        simp only [gt_iff_lt, Nat.lt_one_iff, if_true, zero_lt_one]
        rw [← pow_succ, ← hdm]

theorem clip_between (x lower upper : ℝ) (h : lower ≤ upper) :
    lower ≤ clip x lower upper ∧ clip x lower upper ≤ upper
      ∧ (∀ y : ℝ, lower ≤ y → y ≤ upper → |clip x lower upper - x| ≤ |y - x|)
      ∧ (lower ≤ x → x ≤ upper → clip x lower upper = x) := by
  unfold clip
  refine ⟨le_max_left _ _, max_le h (min_le_right _ _), ?_, ?_⟩
  · intro y hy1 hy2
    rcases le_total x upper with hxu | hxu
    · rw [min_eq_left hxu]
      rcases le_total lower x with hlx | hlx
      · rw [max_eq_right hlx]; simp
      · rw [max_eq_left hlx, abs_of_nonneg (by linarith), abs_of_nonneg (by linarith)]
        linarith
    · rw [min_eq_right hxu, max_eq_right h, abs_of_nonpos (by linarith),
        abs_of_nonpos (by linarith)]
      linarith
  · intro h1 h2
    rw [min_eq_left h2, max_eq_right h1]

/-- C12 (counterexample): with `lower = 2 > upper = 1` the value `clip(0, 2, 1)` is `2`,
which is above `upper`. -/
theorem clip_crossed_bounds :
    clip (0 : ℝ) 2 1 = 2 ∧ ¬ (clip (0 : ℝ) 2 1 ≤ 1) := by
  have h : clip (0 : ℝ) 2 1 = 2 := by
    unfold clip
    rw [min_eq_left (by norm_num), max_eq_left (by norm_num)]
  rw [h]
  norm_num

/-- C12 (amended): for `lower ≤ upper` and every `x`, `clip(x, lower, upper)` lies in
`[lower, upper]`, no value of `[lower, upper]` is closer to `x`, and it equals `x` whenever
`lower ≤ x ≤ upper`. -/
theorem clip_closest (x lower upper : ℝ) (h : lower ≤ upper) :
    lower ≤ clip x lower upper ∧ clip x lower upper ≤ upper
      ∧ (∀ y : ℝ, lower ≤ y → y ≤ upper → |clip x lower upper - x| ≤ |y - x|)
      ∧ (lower ≤ x → x ≤ upper → clip x lower upper = x) :=
  clip_between x lower upper h

/-- C12 (witness): `clip(5, 0, 3)`. -/
theorem clip_closest_witness :
    (0 : ℝ) ≤ clip 5 0 3 ∧ clip (5 : ℝ) 0 3 ≤ 3
      ∧ (∀ y : ℝ, 0 ≤ y → y ≤ 3 → |clip (5 : ℝ) 0 3 - 5| ≤ |y - 5|)
      ∧ ((0 : ℝ) ≤ 5 → (5 : ℝ) ≤ 3 → clip (5 : ℝ) 0 3 = 5) :=
  clip_closest 5 0 3 (by norm_num)

/-- C13: the recursion `pow_integer<e>(b) = pow_integer<e >> 1>(b*b) * (b if e is odd else 1)`
with `pow_integer<0>(b) = 1` is total and equals `b^e` for every exponent `e` and every real
base `b`; in particular `pow_integer<2>(x) = x*x`. -/
theorem pow_integer_correct (e : ℕ) (b : ℝ) :
    pow_integer e b = b ^ e
      ∧ pow_integer 0 b = 1
      ∧ pow_integer (e + 1) b
          = pow_integer ((e + 1) >>> 1) (b * b) * (if ((e + 1) &&& 1) > 0 then b else 1)
      ∧ pow_integer 2 b = b * b := by
  refine ⟨pow_integer_eq_pow e b, ?_, ?_, ?_⟩
  · rw [pow_integer_eq_pow, pow_zero]
  · conv_lhs => rw [pow_integer]
    rw [dif_neg (Nat.succ_ne_zero e)]
  · rw [pow_integer_eq_pow, pow_two]

theorem digit_decimal (value : ℤ) (k : ℕ) (hv : 0 ≤ value) :
    digit value (10 ^ k) = value / 10 ^ k % 10
      ∧ 0 ≤ digit value (10 ^ k) ∧ digit value (10 ^ k) ≤ 9 := by
  have hd : (0 : ℤ) < 10 ^ k := by positivity
  have h1 : digit value (10 ^ k) = value / 10 ^ k % 10 := by
    unfold digit
    rw [Int.tmod_eq_emod hv (by positivity),
      Int.tdiv_eq_ediv (Int.emod_nonneg _ (by positivity)) (le_of_lt hd)]
    obtain ⟨n, rfl⟩ := Int.eq_ofNat_of_zero_le hv
    have := Nat.mod_mul_right_div_self n (10 ^ k) 10
    exact_mod_cast this
  refine ⟨h1, ?_, ?_⟩
  · rw [h1]; exact Int.emod_nonneg _ (by norm_num)
  · rw [h1]
    have := Int.emod_lt_of_pos (value / 10 ^ k) (by norm_num : (0 : ℤ) < 10)
    omega

/-- C14: for every `value ≥ 0` and `d = 10^k`, `digit(value, d) = (value % (d*10)) / d` is
the decimal digit `floor(value / 10^k) mod 10` and lies in `0..9` (integers without
overflow). -/
theorem digit_is_decimal_digit (value : ℤ) (k : ℕ) (hv : 0 ≤ value) :
    digit value (10 ^ k) = value / 10 ^ k % 10
      ∧ 0 ≤ digit value (10 ^ k) ∧ digit value (10 ^ k) ≤ 9 :=
  digit_decimal value k hv

/-- C14 (witness): the digit of `1234` at position `2` is `2`. -/
theorem digit_is_decimal_digit_witness :
    digit 1234 (10 ^ 2) = 1234 / 10 ^ 2 % 10
      ∧ 0 ≤ digit 1234 (10 ^ 2) ∧ digit 1234 (10 ^ 2) ≤ 9 :=
  digit_is_decimal_digit 1234 2 (by decide)

end crpropa
